import Mathlib

/-!
Verification development for the RADIAN millimeter-wave radar pipeline
(`src/mmwave_run6.py`, with `src/mmwave_run.py` for the older TLV parser).

Byte streams are modelled as `List Nat` (each entry one byte), the decoded
point geometry as exact rationals, and the square-root based quantities
(median radius, cluster score, confidence) over the reals with `Real.sqrt`,
idealising the source's floating point arithmetic.
-/

namespace Radian

/-! ## Byte-level primitives -/

/-- The 8-byte frame marker `b"\x02\x01\x04\x03\x06\x05\x08\x07"`. -/
def MAGIC : List Nat := [2, 1, 4, 3, 6, 5, 8, 7]

/-- Value of a little-endian byte list. -/
def leNat : List Nat → Nat
  | [] => 0
  | b :: t => b + 256 * leNat t

/-- Little-endian encoding of `v` on `n` bytes (the inverse of `leNat`
on values below `256 ^ n`). -/
def toLE : Nat → Nat → List Nat
  | 0, _ => []
  | n + 1, v => v % 256 :: toLE n (v / 256)

/-- Read an `n`-byte little-endian unsigned field at offset `off`
(`struct.unpack_from` on unsigned fields). -/
def readLE (l : List Nat) (off n : Nat) : Nat := leNat ((l.drop off).take n)

/-- The nine fixed-width header fields of `FRAME_HDR_FMT = "<QIIIIIIII"`
(the 8-byte magic is part of the header via the leading `Q`). -/
structure FrameHeader where
  magic : Nat
  version : Nat
  totalLen : Nat
  platform : Nat
  frameNumber : Nat
  timeCpuCycles : Nat
  numDetectedObj : Nat
  numTLVs : Nat
  subFrameNumber : Nat
deriving DecidableEq

/-- `struct.calcsize("<QIIIIIIII") = 40`. -/
def FRAME_HDR_LEN : Nat := 40

/-- Parse the 40-byte header at the start of `b` (`struct.unpack_from`). -/
def parseHeader (b : List Nat) : FrameHeader :=
  ⟨readLE b 0 8, readLE b 8 4, readLE b 12 4, readLE b 16 4, readLE b 20 4,
   readLE b 24 4, readLE b 28 4, readLE b 32 4, readLE b 36 4⟩

/-- `buf.find(MAGIC)`: index of the first occurrence of the 8-byte marker,
`none` when absent. -/
def findMagic : List Nat → Option Nat
  | [] => none
  | a :: t => if (a :: t).take 8 = MAGIC then some 0 else (findMagic t).map (· + 1)

/-! ## Frame reader (`get_packet`, mmwave_run6.py lines 118-148)

The reader is modelled on a fully buffered stream: `get_packet_aux` performs
the scanning loop of the source on the buffer contents, and returns `none`
where the source would block waiting for more bytes (marker not yet in the
buffer, header or frame body not fully arrived).  The loop consumes at least
one byte per iteration, so `buf.length + 1` units of fuel always suffice. -/

def get_packet_aux : Nat → List Nat → Option (FrameHeader × List Nat × List Nat)
  | 0, _ => none
  | fuel + 1, buf =>
    match findMagic buf with
    | none => none
    | some idx =>
      let b := buf.drop idx
      if b.length < FRAME_HDR_LEN then none
      else
        let hdr := parseHeader b
        if hdr.totalLen < FRAME_HDR_LEN ∨ 65536 < hdr.totalLen then
          get_packet_aux fuel (b.drop 1)
        else if b.length < hdr.totalLen then none
        else some (hdr, (b.take hdr.totalLen).drop FRAME_HDR_LEN, b.drop hdr.totalLen)

/-- `get_packet` on a fully buffered stream: the returned triple is
(parsed header, payload bytes after the 40-byte header, remaining buffer). -/
def get_packet (buf : List Nat) : Option (FrameHeader × List Nat × List Nat) :=
  get_packet_aux (buf.length + 1) buf

/-- Successive `get_packet` calls: read up to `n` frames, returning the
frames (header, payload) in order together with the remaining buffer. -/
def read_seq : Nat → List Nat → List (FrameHeader × List Nat) × List Nat
  | 0, buf => ([], buf)
  | n + 1, buf =>
    match get_packet buf with
    | none => ([], buf)
    | some (hdr, payload, rest) =>
      let out := read_seq n rest
      ((hdr, payload) :: out.1, out.2)

/-! ## TLV iteration (mmwave_run6.py main, lines 351-366)

`tlv_records payload n` lists the (type, sub-payload) records the TLV loop
slices out of `payload` in `n` iterations; the absolute offset of the source
is represented by recursing on the not-yet-consumed suffix.  The loop `break`s
(stopping, not failing) when fewer than 8 bytes remain or the declared length
would overrun the payload. -/

def tlv_records : List Nat → Nat → List (Nat × List Nat)
  | _, 0 => []
  | payload, n + 1 =>
    if payload.length < 8 then []
    else
      let ty := readLE payload 0 4
      let ln := readLE payload 4 4
      if payload.length < 8 + ln then []
      else (ty, (payload.drop 8).take ln) :: tlv_records (payload.drop (8 + ln)) n

/-- The TLV iteration of the older `mmwave_run.py` (`parse_tlvs`, lines
198-218): there the declared length counts the 8-byte sub-header, so the
data slice is `tlv_len - 8` bytes (truncated by the payload end) and the
offset advances by `8 + len(data)`.  Python's negative slice bound for
`tlv_len < 8` is not modelled; theorems about this function assume
`8 ≤ tlv_len`. -/
def parse_tlvs_records : List Nat → Nat → List (Nat × List Nat)
  | _, 0 => []
  | payload, n + 1 =>
    if payload.length < 8 then []
    else
      let ty := readLE payload 0 4
      let ln := readLE payload 4 4
      let data := (payload.drop 8).take (ln - 8)
      (ty, data) :: parse_tlvs_records (payload.drop (8 + data.length)) n

/-- Wire encoding of one TLV record under the convention of the
mmwave_run6 loop: 4-byte type, 4-byte length of the typed payload,
then the payload bytes. -/
def encode_tlv (r : Nat × List Nat) : List Nat :=
  toLE 4 r.1 ++ toLE 4 r.2.length ++ r.2

/-- Concatenation of encoded TLV records. -/
def encode_tlvs (rs : List (Nat × List Nat)) : List Nat :=
  (rs.map encode_tlv).foldr (· ++ ·) []

/-! ## Frame-reader lemmas -/

/-- No marker occurrence starts inside `g` (occurrences that would span past
the end of `g` into a following frame are ruled out separately, because the
marker has no non-trivial border). -/
def magicFree (g : List Nat) : Prop := ∀ i < g.length, (g.drop i).take 8 ≠ MAGIC

instance (g : List Nat) : Decidable (magicFree g) := by
  unfold magicFree; infer_instance

lemma magic_ne_nil : MAGIC ≠ [] := by decide

lemma magic_no_border : ∀ k, 1 ≤ k → k ≤ 7 → MAGIC.take (8 - k) ≠ MAGIC.drop k := by decide

lemma magicFree_tail {a : Nat} {g : List Nat} (h : magicFree (a :: g)) : magicFree g := by
  intro i hi hmag
  exact h (i + 1) (by simpa using Nat.succ_lt_succ hi) hmag

/-- The marker is found exactly at the start of the continuation `c` when the
garbage before it is marker-free. -/
lemma findMagic_append (g c : List Nat) (hg : magicFree g) (hc : c.take 8 = MAGIC) :
    findMagic (g ++ c) = some g.length := by
  induction g with
  | nil =>
    cases c with
    | nil => exact absurd hc.symm magic_ne_nil
    | cons a t => simpa [findMagic] using hc
  | cons a g' ih =>
    have hcond : ¬ ((a :: g') ++ c).take 8 = MAGIC := by
      intro hmag
      rcases le_or_lt 8 (a :: g').length with h8 | h8
      · have hmag' : (a :: g').take 8 = MAGIC := by
          rw [← List.take_append_of_le_length h8]; exact hmag
        exact hg 0 (by simp) (by simpa using hmag')
      · set k := (a :: g').length with hk
        have hk1 : 1 ≤ k := by simp [hk]
        have hk7 : k ≤ 7 := by omega
        have hsplit : ((a :: g') ++ c).take 8 = (a :: g') ++ c.take (8 - k) := by
          rw [List.take_append_eq_append_take, List.take_of_length_le (by omega)]
        have heq : (a :: g') ++ c.take (8 - k) = MAGIC := hsplit ▸ hmag
        have hdropk : c.take (8 - k) = MAGIC.drop k := by
          have := congrArg (List.drop k) heq
          rwa [hk, List.drop_left] at this
        have htakek : c.take (8 - k) = MAGIC.take (8 - k) := by
          rw [← hc, List.take_take, min_eq_left (by omega)]
        exact magic_no_border k hk1 hk7 (htakek ▸ hdropk)
    have := ih (magicFree_tail hg)
    simp only [List.cons_append, findMagic]
    rw [if_neg (by simpa using hcond)]
    simp only [List.cons_append] at this
    simp [this]

lemma findMagic_none (g : List Nat) (hg : magicFree g) : findMagic g = none := by
  induction g with
  | nil => rfl
  | cons a t ih =>
    simp only [findMagic]
    rw [if_neg (by simpa using hg 0 (by simp)), ih (magicFree_tail hg)]
    rfl

lemma readLE_append (l r : List Nat) (off n : Nat) (h : off + n ≤ l.length) :
    readLE (l ++ r) off n = readLE l off n := by
  unfold readLE
  rw [List.drop_append_eq_append_drop, Nat.sub_eq_zero_of_le (by omega), List.drop_zero,
    List.take_append_of_le_length (by simp [List.length_drop]; omega)]

lemma readLE_take (l : List Nat) (m off n : Nat) (h : off + n ≤ m) :
    readLE (l.take m) off n = readLE l off n := by
  unfold readLE
  rw [List.drop_take, List.take_take, min_eq_left (by omega)]

lemma parseHeader_append (l r : List Nat) (h : FRAME_HDR_LEN ≤ l.length) :
    parseHeader (l ++ r) = parseHeader l := by
  have h40 : 40 ≤ l.length := h
  simp only [parseHeader, FrameHeader.mk.injEq]
  refine ⟨?_, ?_, ?_, ?_, ?_, ?_, ?_, ?_, ?_⟩ <;> exact readLE_append l r _ _ (by omega)

lemma parseHeader_take (l : List Nat) (m : Nat) (h : FRAME_HDR_LEN ≤ m) :
    parseHeader (l.take m) = parseHeader l := by
  have h40 : 40 ≤ m := h
  simp only [parseHeader, FrameHeader.mk.injEq]
  refine ⟨?_, ?_, ?_, ?_, ?_, ?_, ?_, ?_, ?_⟩ <;> exact readLE_take l m _ _ (by omega)

/-- A well-formed frame: starts with the marker, its declared total length
(header field 2) equals its actual byte count, and that length is within the
reader's accepted window `[FRAME_HDR_LEN, 65536]`. -/
def wfFrame (fb : List Nat) : Prop :=
  fb.take 8 = MAGIC ∧ (parseHeader fb).totalLen = fb.length ∧
    FRAME_HDR_LEN ≤ fb.length ∧ fb.length ≤ 65536

instance (fb : List Nat) : Decidable (wfFrame fb) := by
  unfold wfFrame; infer_instance

lemma wfFrame_take8 {fb : List Nat} (hfb : wfFrame fb) (r : List Nat) :
    (fb ++ r).take 8 = MAGIC := by
  rw [List.take_append_of_le_length (by have := hfb.2.2.1; simp [FRAME_HDR_LEN] at this; omega)]
  exact hfb.1

/-- One successful `get_packet` call: marker-free garbage is discarded, the
well-formed frame is consumed whole, and the parsed header together with the
payload (everything after the 40-byte header) is returned. -/
lemma get_packet_aux_append (fuel : Nat) (hf : 0 < fuel) (g fb r : List Nat)
    (hg : magicFree g) (hfb : wfFrame fb) :
    get_packet_aux fuel (g ++ (fb ++ r))
      = some (parseHeader fb, fb.drop FRAME_HDR_LEN, r) := by
  obtain ⟨fuel, rfl⟩ : ∃ m, fuel = m + 1 := ⟨fuel - 1, by omega⟩
  obtain ⟨hmag, hlen, hge, hle⟩ := hfb
  have hge40 : 40 ≤ fb.length := hge
  have hc : (fb ++ r).take 8 = MAGIC := wfFrame_take8 ⟨hmag, hlen, hge, hle⟩ r
  simp only [get_packet_aux]
  rw [findMagic_append g (fb ++ r) hg hc]
  have hdrop : (g ++ (fb ++ r)).drop g.length = fb ++ r := List.drop_left ..
  simp only [hdrop]
  have hhdr : parseHeader (fb ++ r) = parseHeader fb := parseHeader_append fb r hge
  rw [if_neg (by simp only [List.length_append, FRAME_HDR_LEN, not_lt]; omega), hhdr]
  rw [if_neg (by rw [hlen]; simp only [FRAME_HDR_LEN, not_or, not_lt]; omega)]
  rw [if_neg (by rw [hlen]; simp only [List.length_append, not_lt]; omega)]
  rw [hlen, List.take_left, List.drop_left]

lemma get_packet_append (g fb r : List Nat) (hg : magicFree g) (hfb : wfFrame fb) :
    get_packet (g ++ (fb ++ r)) = some (parseHeader fb, fb.drop FRAME_HDR_LEN, r) :=
  get_packet_aux_append _ (Nat.succ_pos _) g fb r hg hfb

lemma get_packet_none (g : List Nat) (hg : magicFree g) : get_packet g = none := by
  unfold get_packet get_packet_aux
  rw [findMagic_none g hg]

/-- A byte stream of alternating marker-free garbage and frames, with
trailing bytes `tail`. -/
def frame_stream : List (List Nat × List Nat) → List Nat → List Nat
  | [], tail => tail
  | (g, fb) :: rest, tail => g ++ (fb ++ frame_stream rest tail)

lemma read_seq_frame_stream (segs : List (List Nat × List Nat)) (tail : List Nat)
    (hseg : ∀ s ∈ segs, magicFree s.1 ∧ wfFrame s.2) :
    read_seq segs.length (frame_stream segs tail)
      = (segs.map fun s => (parseHeader s.2, s.2.drop FRAME_HDR_LEN), tail) := by
  induction segs with
  | nil => rfl
  | cons s rest ih =>
    obtain ⟨g, fb⟩ := s
    have hs := hseg (g, fb) (by simp)
    simp only [frame_stream, List.length_cons, read_seq,
      get_packet_append g fb (frame_stream rest tail) hs.1 hs.2,
      ih (fun s hmem => hseg s (List.mem_cons_of_mem _ hmem)), List.map_cons]

/-- Resynchronisation: a marker followed by an implausible declared total
length (below the header size or above the 64 KiB cap) is never returned;
the reader advances one byte, finds the next marker and returns the next
well-formed frame. -/
lemma get_packet_aux_resync (fuel : Nat) (hf : 2 ≤ fuel) (bad g fb r : List Nat)
    (hmag : bad.take 8 = MAGIC) (hblen : FRAME_HDR_LEN ≤ bad.length)
    (hbad : (parseHeader bad).totalLen < FRAME_HDR_LEN ∨ 65536 < (parseHeader bad).totalLen)
    (hg : magicFree (bad.drop 1 ++ g)) (hfb : wfFrame fb) :
    get_packet_aux fuel (bad ++ (g ++ (fb ++ r)))
      = some (parseHeader fb, fb.drop FRAME_HDR_LEN, r) := by
  obtain ⟨fuel, rfl⟩ : ∃ m, fuel = m + 1 := ⟨fuel - 1, by omega⟩
  have hb40 : 40 ≤ bad.length := hblen
  have hc : (bad ++ (g ++ (fb ++ r))).take 8 = MAGIC := by
    rw [List.take_append_of_le_length (by omega)]; exact hmag
  have hfind : findMagic (bad ++ (g ++ (fb ++ r))) = some 0 := by
    have := findMagic_append [] (bad ++ (g ++ (fb ++ r)))
      (by intro i hi; simp at hi) (by simpa using hc)
    simpa using this
  simp only [get_packet_aux, hfind, List.drop_zero]
  have hhdr : parseHeader (bad ++ (g ++ (fb ++ r))) = parseHeader bad :=
    parseHeader_append bad _ hblen
  rw [if_neg (by simp only [List.length_append, FRAME_HDR_LEN, not_lt]; omega), hhdr]
  rw [if_pos (by simpa using hbad)]
  have hdrop1 : (bad ++ (g ++ (fb ++ r))).drop 1 = (bad.drop 1 ++ g) ++ (fb ++ r) := by
    rw [List.drop_append_eq_append_drop, Nat.sub_eq_zero_of_le (by omega), List.drop_zero,
      List.append_assoc]
  rw [hdrop1]
  exact get_packet_aux_append fuel (by omega) (bad.drop 1 ++ g) fb r hg hfb

lemma get_packet_resync (bad g fb r : List Nat)
    (hmag : bad.take 8 = MAGIC) (hblen : FRAME_HDR_LEN ≤ bad.length)
    (hbad : (parseHeader bad).totalLen < FRAME_HDR_LEN ∨ 65536 < (parseHeader bad).totalLen)
    (hg : magicFree (bad.drop 1 ++ g)) (hfb : wfFrame fb) :
    get_packet (bad ++ (g ++ (fb ++ r)))
      = some (parseHeader fb, fb.drop FRAME_HDR_LEN, r) := by
  have hb40 : 40 ≤ bad.length := hblen
  exact get_packet_aux_resync _ (by simp [List.length_append]; omega) bad g fb r
    hmag hblen hbad hg hfb

/-- A partial frame (only `m` of the frame's bytes have arrived) is never
returned: the reader keeps waiting for more bytes. -/
lemma get_packet_partial (g fb : List Nat) (m : Nat)
    (hg : magicFree g) (hfb : wfFrame fb) (hm8 : 8 ≤ m) (hmlt : m < fb.length) :
    get_packet (g ++ fb.take m) = none := by
  obtain ⟨hmag, hlen, hge, hle⟩ := hfb
  have hc : (fb.take m).take 8 = MAGIC := by
    rw [List.take_take, min_eq_left (by omega)]; exact hmag
  have hlentake : (fb.take m).length = m := by
    rw [List.length_take]; omega
  unfold get_packet get_packet_aux
  rw [findMagic_append g (fb.take m) hg hc]
  dsimp only
  rw [List.drop_left]
  rcases lt_or_le m FRAME_HDR_LEN with hm40 | hm40
  · rw [if_pos (by rw [hlentake]; exact hm40)]
  · have h1 : ¬ (fb.take m).length < FRAME_HDR_LEN := by rw [hlentake]; omega
    rw [if_neg h1, parseHeader_take fb m hm40, hlen]
    have h2 : ¬ (fb.length < FRAME_HDR_LEN ∨ 65536 < fb.length) := by omega
    rw [if_neg h2]
    have h3 : (fb.take m).length < fb.length := by rw [hlentake]; exact hmlt
    rw [if_pos h3]

/-- C1: a byte stream of N well-formed back-to-back frames interleaved with
marker-free garbage yields exactly those N frames in order, each with its
parsed header fields and a payload of declared-total-length minus 40 bytes,
and nothing more from the trailing garbage; a frame whose declared total
length is below the 40-byte header length or above the 65536-byte cap is
never returned (the reader drops one byte, resynchronises and returns the
next well-formed frame instead); and a partially arrived frame is never
returned. -/
theorem frame_reader_spec :
    (∀ segs : List (List Nat × List Nat), ∀ tail : List Nat,
      (∀ s ∈ segs, magicFree s.1 ∧ wfFrame s.2) → magicFree tail →
      read_seq segs.length (frame_stream segs tail)
          = (segs.map fun s => (parseHeader s.2, s.2.drop FRAME_HDR_LEN), tail)
        ∧ get_packet tail = none
        ∧ ∀ s ∈ segs, (s.2.drop FRAME_HDR_LEN).length
            = (parseHeader s.2).totalLen - FRAME_HDR_LEN)
  ∧ (∀ bad g fb r : List Nat, bad.take 8 = MAGIC → FRAME_HDR_LEN ≤ bad.length →
      ((parseHeader bad).totalLen < FRAME_HDR_LEN ∨ 65536 < (parseHeader bad).totalLen) →
      magicFree (bad.drop 1 ++ g) → wfFrame fb →
      get_packet (bad ++ (g ++ (fb ++ r)))
        = some (parseHeader fb, fb.drop FRAME_HDR_LEN, r))
  ∧ (∀ g fb : List Nat, ∀ m : Nat, magicFree g → wfFrame fb → 8 ≤ m → m < fb.length →
      get_packet (g ++ fb.take m) = none) := by
  refine ⟨fun segs tail hseg htail => ⟨read_seq_frame_stream segs tail hseg,
      get_packet_none tail htail, fun s hs => ?_⟩,
    fun bad g fb r h1 h2 h3 h4 h5 => get_packet_resync bad g fb r h1 h2 h3 h4 h5,
    fun g fb m h1 h2 h3 h4 => get_packet_partial g fb m h1 h2 h3 h4⟩
  have := (hseg s hs).2.2.1
  rw [List.length_drop, (hseg s hs).2.2.1]

/-- Sanity instance: a concrete 41-byte frame (40-byte header and one payload
byte) is well formed and is read back out of garbage by `get_packet`. -/
theorem frame_reader_instance :
    wfFrame (MAGIC ++ ([1, 0, 0, 0] ++ ([41, 0, 0, 0] ++ List.replicate 25 7)))
      ∧ magicFree [9, 9, 2, 1, 4, 9] := by decide

/-! ## TLV lemmas -/

lemma length_toLE (n v : Nat) : (toLE n v).length = n := by
  induction n generalizing v with
  | zero => rfl
  | succ n ih => simp [toLE, ih]

lemma leNat_toLE (n v : Nat) (h : v < 256 ^ n) : leNat (toLE n v) = v := by
  induction n generalizing v with
  | zero => simp [toLE, leNat]; omega
  | succ n ih =>
    have hdiv : v / 256 < 256 ^ n := by
      apply Nat.div_lt_of_lt_mul
      calc v < 256 ^ (n + 1) := h
        _ = 256 * 256 ^ n := by ring
    simp [toLE, leNat, ih (v / 256) hdiv, Nat.mod_add_div]

lemma readLE_encode_ty (ty ln : Nat) (data rest : List Nat) (hty : ty < 2 ^ 32) :
    readLE (toLE 4 ty ++ (toLE 4 ln ++ (data ++ rest))) 0 4 = ty := by
  unfold readLE
  rw [List.drop_zero, List.take_append_of_le_length (by rw [length_toLE]),
    List.take_of_length_le (by rw [length_toLE])]
  exact leNat_toLE 4 ty hty

lemma readLE_encode_len (ty ln : Nat) (data rest : List Nat) (hln : ln < 2 ^ 32) :
    readLE (toLE 4 ty ++ (toLE 4 ln ++ (data ++ rest))) 4 4 = ln := by
  have h : (toLE 4 ty ++ (toLE 4 ln ++ (data ++ rest))).drop 4
      = toLE 4 ln ++ (data ++ rest) := by
    rw [List.drop_append_eq_append_drop, List.drop_eq_nil_of_le (by rw [length_toLE]),
      length_toLE]
    simp
  unfold readLE
  rw [h, List.take_append_of_le_length (by rw [length_toLE]),
    List.take_of_length_le (by rw [length_toLE])]
  exact leNat_toLE 4 ln hln

/-- One iteration of the mmwave_run6 TLV loop on a record encoded with the
length field counting only the typed payload. -/
lemma tlv_records_cons (ty : Nat) (data rest : List Nat) (n : Nat)
    (hty : ty < 2 ^ 32) (hlen : data.length < 2 ^ 32) :
    tlv_records (encode_tlv (ty, data) ++ rest) (n + 1)
      = (ty, data) :: tlv_records rest n := by
  have hassoc : encode_tlv (ty, data) ++ rest
      = toLE 4 ty ++ (toLE 4 data.length ++ (data ++ rest)) := by
    simp [encode_tlv, List.append_assoc]
  have hlength : (toLE 4 ty ++ (toLE 4 data.length ++ (data ++ rest))).length
      = 8 + data.length + rest.length := by
    simp [length_toLE]; omega
  rw [hassoc]
  simp only [tlv_records]
  rw [if_neg (by rw [hlength]; omega)]
  rw [readLE_encode_ty ty data.length data rest hty,
    readLE_encode_len ty data.length data rest hlen]
  rw [if_neg (by rw [hlength]; omega)]
  have hdrop8 : (toLE 4 ty ++ (toLE 4 data.length ++ (data ++ rest))).drop 8
      = data ++ rest := by
    rw [show (8 : Nat) = (toLE 4 ty).length + (toLE 4 data.length).length by
        rw [length_toLE, length_toLE], ← List.length_append, ← List.append_assoc,
      List.drop_left]
  have hdropall : (toLE 4 ty ++ (toLE 4 data.length ++ (data ++ rest))).drop
      (8 + data.length) = rest := by
    rw [← List.drop_drop, hdrop8, List.drop_left]
  rw [hdrop8, List.take_left, hdropall]

/-- The TLV loop stops without error on a malformed trailing chunk: fewer
than 8 bytes remain, or the declared length would overrun the payload. -/
lemma tlv_records_stop (t : List Nat) (n : Nat)
    (h : t.length < 8 ∨ t.length < 8 + readLE t 4 4) : tlv_records t n = [] := by
  cases n with
  | zero => rfl
  | succ n =>
    unfold tlv_records
    rcases h with h | h
    · rw [if_pos h]
    · rcases lt_or_le t.length 8 with h8 | h8
      · rw [if_pos h8]
      · rw [if_neg (by omega), if_pos h]

/-- C9: if the TLV payload is a sequence of well-formed sub-records followed
by a malformed trailing chunk (shorter than an 8-byte sub-header, or with a
declared length running past the payload end), the decoder of mmwave_run6
stops at the malformed chunk, keeps exactly the sub-records already decoded,
and raises no error (it is a total function returning that list). -/
theorem tlv_truncation_spec (rs : List (Nat × List Nat)) (t : List Nat) (n : Nat)
    (hn : rs.length ≤ n) (hv : ∀ r ∈ rs, r.1 < 2 ^ 32 ∧ r.2.length < 2 ^ 32)
    (ht : t.length < 8 ∨ t.length < 8 + readLE t 4 4) :
    tlv_records (encode_tlvs rs ++ t) n = rs := by
  induction rs generalizing n with
  | nil => simpa [encode_tlvs] using tlv_records_stop t n ht
  | cons r rs ih =>
    obtain ⟨ty, data⟩ := r
    obtain ⟨n, rfl⟩ : ∃ m, n = m + 1 := ⟨n - 1, by simp at hn; omega⟩
    have hr := hv (ty, data) (by simp)
    have hrest : encode_tlvs ((ty, data) :: rs) ++ t
        = encode_tlv (ty, data) ++ (encode_tlvs rs ++ t) := by
      simp [encode_tlvs, List.append_assoc]
    rw [hrest, tlv_records_cons ty data _ n hr.1 hr.2]
    rw [ih n (by simp at hn; omega) (fun r hr => hv r (List.mem_cons_of_mem _ hr))]

/-- Witness for C9 at a concrete input: one well-formed detected-points
record followed by a 3-byte truncated chunk. -/
theorem tlv_truncation_witness :
    ([((1 : Nat), List.replicate 16 (170 : Nat))].length ≤ 2)
    ∧ (∀ r ∈ [((1 : Nat), List.replicate 16 (170 : Nat))], r.1 < 2 ^ 32 ∧ r.2.length < 2 ^ 32)
    ∧ (([0, 0, 0] : List Nat).length < 8 ∨ ([0, 0, 0] : List Nat).length < 8 + readLE [0, 0, 0] 4 4)
    ∧ tlv_records (encode_tlvs [((1 : Nat), List.replicate 16 (170 : Nat))] ++ [0, 0, 0]) 2
        = [((1 : Nat), List.replicate 16 (170 : Nat))] :=
  ⟨by decide, by decide, by decide,
    tlv_truncation_spec [(1, List.replicate 16 170)] [0, 0, 0] 2
      (by decide) (by decide) (by decide)⟩

/-- Concrete two-record TLV payload: a detected-points record whose length
field declares 16 payload bytes, then a side-info record declaring 4. -/
def tlvPayloadC2 : List Nat :=
  encode_tlv (1, List.replicate 16 170) ++ encode_tlv (7, [9, 9, 9, 9])

/-- C2 counterexample: in mmwave_run6's TLV loop the typed payload of the
first sub-record is its full declared length of 16 bytes, not 16 - 8, and
the second sub-record is found at offset 8 + 16 (type tag 7) rather than at
offset 16; the older `parse_tlvs` of mmwave_run.py, which does treat the
length as including the sub-header, decodes the same payload differently. -/
theorem tlv_length_convention_cex :
    ((tlv_records tlvPayloadC2 2).map fun r => (r.1, r.2.length)) = [(1, 16), (7, 4)]
    ∧ readLE tlvPayloadC2 4 4 = 16
    ∧ ((tlv_records tlvPayloadC2 2).map fun r => (r.1, r.2.length)) ≠ [(1, 16 - 8), (7, 4)]
    ∧ tlv_records tlvPayloadC2 2 ≠ parse_tlvs_records tlvPayloadC2 2 := by decide

/-- C2 amended: in the TLV loop of mmwave_run6 the 4-byte length field
counts only the typed payload (it excludes the 8-byte sub-header): the
decoder takes the sub-record's typed payload to be declared-length bytes
and advances to the next sub-record at current offset + 8 + declared
length.  (In the older mmwave_run.py `parse_tlvs`, the length field is
instead treated as including the sub-header: the typed payload is
declared-length-minus-8 bytes and the offset advances by the declared
length, which is what the original claim described.) -/
theorem tlv_length_convention :
    (∀ p : List Nat, ∀ n : Nat, 8 ≤ p.length → 8 + readLE p 4 4 ≤ p.length →
      tlv_records p (n + 1)
        = (readLE p 0 4, (p.drop 8).take (readLE p 4 4))
            :: tlv_records (p.drop (8 + readLE p 4 4)) n)
  ∧ (∀ p : List Nat, ∀ n : Nat, 8 ≤ p.length → 8 ≤ readLE p 4 4 →
      readLE p 4 4 ≤ p.length →
      parse_tlvs_records p (n + 1)
        = (readLE p 0 4, (p.drop 8).take (readLE p 4 4 - 8))
            :: parse_tlvs_records (p.drop (readLE p 4 4)) n) := by
  constructor
  · intro p n h8 hln
    simp only [tlv_records]
    rw [if_neg (by omega), if_neg (by omega)]
  · intro p n h8 hln8 hlnp
    simp only [parse_tlvs_records]
    rw [if_neg (by omega)]
    have hdata : ((p.drop 8).take (readLE p 4 4 - 8)).length = readLE p 4 4 - 8 := by
      rw [List.length_take, List.length_drop]; omega
    rw [hdata]
    have : 8 + (readLE p 4 4 - 8) = readLE p 4 4 := by omega
    rw [this]

/-! ## Point geometry (exact rationals; reals where the source takes
square roots) -/

/-- A decoded detection point `(x, y, z, v)`. -/
structure Pt where
  x : ℚ
  y : ℚ
  z : ℚ
  v : ℚ
deriving DecidableEq

/-- Default point for out-of-range list indexing (never reached under the
index bounds maintained by the pipeline). -/
def pt0 : Pt := ⟨0, 0, 0, 0⟩

/-- `statistics.median`: sort the data, take the middle element (odd count)
or the mean of the two middle elements (even count).  The source raises
`StatisticsError` on an empty list; this embedding returns 0 there and every
use in the pipeline is on a nonempty list. -/
def medianList {α : Type} [LinearOrderedField α]
    [DecidableRel ((· ≤ ·) : α → α → Prop)] (l : List α) : α :=
  let s := List.insertionSort (· ≤ ·) l
  if l.length % 2 = 1 then s.getD (l.length / 2) 0
  else (s.getD (l.length / 2 - 1) 0 + s.getD (l.length / 2) 0) / 2

/-- `robust_center` (mmwave_run6.py lines 171-181): per-axis median. -/
def robust_center (points : List Pt) : Pt :=
  ⟨medianList (points.map Pt.x), medianList (points.map Pt.y),
   medianList (points.map Pt.z), medianList (points.map Pt.v)⟩

/-- Squared Euclidean distance in (x, y, z), ignoring velocity, as computed
by `dist2` inside `cap_near_center` and by `median_radius` before the
square root. -/
def dist2 (p c : Pt) : ℚ :=
  (p.x - c.x) * (p.x - c.x) + (p.y - c.y) * (p.y - c.y) + (p.z - c.z) * (p.z - c.z)

/-- `median_radius` (lines 184-190): median of the Euclidean distances of
the points to `center`.  The source returns float inf for an empty list; the
pipeline only evaluates it on nonempty lists, and this embedding returns the
junk value 0 on the empty list. -/
noncomputable def median_radius (points : List Pt) (center : Pt) : ℝ :=
  medianList (points.map fun p => Real.sqrt ((dist2 p center : ℚ) : ℝ))

/-- `cap_near_center` (lines 193-200): stable sort by squared distance to
`center`, then keep the first `max_points` entries. -/
def cap_near_center (points : List Pt) (center : Pt) (max_points : ℕ) : List Pt :=
  (List.insertionSort (fun p q => dist2 p center ≤ dist2 q center) points).take max_points

/-- The tunables of mmwave_run6.py (environment-overridable constants). -/
structure Config where
  MAX_POINTS : ℕ
  MAX_ABS_X : ℚ
  MIN_Y : ℚ
  MAX_Y : ℚ
  MAX_ABS_Z : ℚ
  MAX_ABS_V : ℚ
  MIN_SNR : ℤ
  CLUSTER_EPS_M : ℚ
  CLUSTER_MIN_SAMPLES : ℕ
  MIN_PERSON_POINTS : ℕ
  MAX_MEDIAN_RADIUS_M : ℚ
  PREF_Y_MAX : ℚ
  MIN_MEDIAN_SPEED_MPS : ℚ

/-- The default values of the tunables (lines 65-87). -/
def defaultConfig : Config :=
  ⟨50, 6, 1, 8, 3, 6, 70, 7/10, 3, 4, 85/100, 35/10, 0⟩

/-! ## Density clusterer (`dbscan_cluster_indices`, lines 203-242)

The numpy label / visited arrays are embedded as functions `ℕ → ℤ` and
`ℕ → Bool` updated with `Function.update`; the final labels array is
materialised as `(List.range n).map labels`.  The `while q` loop runs on
structural fuel counting popped queue entries; `none` means the fuel ran
out, which `dbscan_fuel_total` shows never happens for the fuel passed by
`dbscan_cluster_indices`. -/

/-- Squared distance of two (x, y, z) triples (`np.sum(di * di)`). -/
def d2xyz (a b : ℚ × ℚ × ℚ) : ℚ :=
  (a.1 - b.1) * (a.1 - b.1) + (a.2.1 - b.2.1) * (a.2.1 - b.2.1)
    + (a.2.2 - b.2.2) * (a.2.2 - b.2.2)

/-- `np.where(d2 <= eps2)[0]`: the ascending indices of the points within
squared distance `eps * eps` of point `i` (the point itself included). -/
def neighbors_list (xyz : List (ℚ × ℚ × ℚ)) (eps : ℚ) (i : ℕ) : List ℕ :=
  (List.range xyz.length).filter fun j =>
    decide (d2xyz (xyz.getD j (0, 0, 0)) (xyz.getD i (0, 0, 0)) ≤ eps * eps)

/-- The inner `while q` BFS: pop from the left, visit the popped point,
extend the queue on the right by the neighbor list of a newly visited core
point, and give every popped still-unlabeled point the current cluster id. -/
def dbscan_bfs (nb : ℕ → List ℕ) (min_samples : ℕ) (cid : ℤ) :
    Nat → (ℕ → ℤ) → (ℕ → Bool) → List ℕ → Option ((ℕ → ℤ) × (ℕ → Bool))
  | _, labels, visited, [] => some (labels, visited)
  | 0, _, _, _ :: _ => none
  | fuel + 1, labels, visited, j :: q =>
    if visited j then
      dbscan_bfs nb min_samples cid fuel
        (if labels j = -1 then Function.update labels j cid else labels) visited q
    else if min_samples ≤ (nb j).length then
      dbscan_bfs nb min_samples cid fuel
        (if labels j = -1 then Function.update labels j cid else labels)
        (Function.update visited j true) (q ++ nb j)
    else
      dbscan_bfs nb min_samples cid fuel
        (if labels j = -1 then Function.update labels j cid else labels)
        (Function.update visited j true) q

/-- The outer `for i in range(n)` scan: skip visited points, mark non-core
points noise, and start a BFS with a fresh cluster id at unvisited core
points. -/
def dbscan_outer (nb : ℕ → List ℕ) (min_samples : ℕ) (F : ℕ) :
    List ℕ → ℤ → (ℕ → ℤ) → (ℕ → Bool) → Option ((ℕ → ℤ) × (ℕ → Bool))
  | [], _, labels, visited => some (labels, visited)
  | i :: rest, cid, labels, visited =>
    if visited i then dbscan_outer nb min_samples F rest cid labels visited
    else
      let visited1 := Function.update visited i true
      if (nb i).length < min_samples then
        dbscan_outer nb min_samples F rest cid (Function.update labels i (-1)) visited1
      else
        match dbscan_bfs nb min_samples cid F (Function.update labels i cid) visited1 (nb i) with
        | none => none
        | some lv => dbscan_outer nb min_samples F rest (cid + 1) lv.1 lv.2

/-- `k` lies in the neighborhood of some core point with index below `n`
(recall that a point belongs to its own neighborhood). -/
def nearCore (n : ℕ) (nb : ℕ → List ℕ) (min_samples : ℕ) (k : ℕ) : Prop :=
  ∃ j, j < n ∧ min_samples ≤ (nb j).length ∧ k ∈ nb j

lemma dbscan_bfs_nil (nb : ℕ → List ℕ) (min_samples : ℕ) (cid : ℤ) (fuel : ℕ)
    (labels : ℕ → ℤ) (visited : ℕ → Bool) :
    dbscan_bfs nb min_samples cid fuel labels visited [] = some (labels, visited) := by
  cases fuel <;> rfl

/-- Combined invariant lemma for the BFS: monotonicity of labels and visited,
the only new label value is the current cluster id (used on indices below
`n`), labeled points are in a core point's neighborhood, and on exit every
neighborhood of a visited core point is fully labeled. -/
lemma dbscan_bfs_spec {n : ℕ} {nb : ℕ → List ℕ} {min_samples : ℕ}
    (hnb : ∀ i, ∀ k ∈ nb i, k < n) (cid : ℤ) (hcid : 0 ≤ cid) :
    ∀ fuel : ℕ, ∀ labels : ℕ → ℤ, ∀ visited : ℕ → Bool, ∀ q : List ℕ,
      ∀ labels2 : ℕ → ℤ, ∀ visited2 : ℕ → Bool,
    dbscan_bfs nb min_samples cid fuel labels visited q = some (labels2, visited2) →
    (∀ j ∈ q, j < n) →
    (∀ k, labels k ≠ -1 → visited k = true) →
    (∀ k ∈ q, nearCore n nb min_samples k) →
    (∀ k, labels k ≠ -1 → nearCore n nb min_samples k) →
    (∀ j, j < n → visited j = true → min_samples ≤ (nb j).length →
      ∀ k ∈ nb j, labels k ≠ -1 ∨ k ∈ q) →
    (∀ k, labels k ≠ -1 → labels2 k = labels k) ∧
    (∀ k, visited k = true → visited2 k = true) ∧
    (∀ k, labels2 k = labels k ∨ (labels2 k = cid ∧ k < n)) ∧
    (∀ k, labels2 k ≠ -1 → visited2 k = true) ∧
    (∀ k, labels2 k ≠ -1 → nearCore n nb min_samples k) ∧
    (∀ j, j < n → visited2 j = true → min_samples ≤ (nb j).length →
      ∀ k ∈ nb j, labels2 k ≠ -1) ∧
    (∀ k, ¬ k < n → visited2 k = visited k) := by
  intro fuel
  induction fuel with
  | zero =>
    intro labels visited q labels2 visited2 heq hq hlv hqw hlw hob
    cases q with
    | nil =>
      rw [dbscan_bfs_nil] at heq
      simp only [Option.some.injEq, Prod.mk.injEq] at heq
      obtain ⟨rfl, rfl⟩ := heq
      exact ⟨fun k _ => rfl, fun k h => h, fun k => Or.inl rfl, hlv, hlw,
        fun j hj hv hc k hk => (hob j hj hv hc k hk).resolve_right (by simp),
        fun k _ => rfl⟩
    | cons j q => simp [dbscan_bfs] at heq
  | succ fuel ih =>
    intro labels visited q labels2 visited2 heq hq hlv hqw hlw hob
    cases q with
    | nil =>
      rw [dbscan_bfs_nil] at heq
      simp only [Option.some.injEq, Prod.mk.injEq] at heq
      obtain ⟨rfl, rfl⟩ := heq
      exact ⟨fun k _ => rfl, fun k h => h, fun k => Or.inl rfl, hlv, hlw,
        fun j hj hv hc k hk => (hob j hj hv hc k hk).resolve_right (by simp),
        fun k _ => rfl⟩
    | cons j q =>
      have hjn : j < n := hq j (by simp)
      have hjw : nearCore n nb min_samples j := hqw j (by simp)
      set nl := if labels j = -1 then Function.update labels j cid else labels with hnl
      have hnlj : nl j ≠ -1 := by
        rw [hnl]; split
        · simp; omega
        · assumption
      have hnl_old : ∀ k, labels k ≠ -1 → nl k = labels k := by
        intro k hk
        rw [hnl]; split
        · rename_i hlj
          rcases eq_or_ne k j with rfl | hkj
          · exact absurd hlj hk
          · exact Function.update_noteq hkj _ _
        · rfl
      have hnl_or : ∀ k, nl k = labels k ∨ (nl k = cid ∧ k < n) := by
        intro k
        rw [hnl]; split
        · rcases eq_or_ne k j with rfl | hkj
          · exact Or.inr ⟨Function.update_same .., hjn⟩
          · exact Or.inl (Function.update_noteq hkj _ _)
        · exact Or.inl rfl
      have hnl_ne : ∀ k, nl k ≠ -1 → labels k ≠ -1 ∨ k = j := by
        intro k hk
        rcases eq_or_ne k j with rfl | hkj
        · exact Or.inr rfl
        · left
          rw [hnl] at hk
          revert hk; split
          · rw [Function.update_noteq hkj _ _]; exact id
          · exact id
      have hnl_w : ∀ k, nl k ≠ -1 → nearCore n nb min_samples k := by
        intro k hk
        rcases hnl_ne k hk with h | rfl
        · exact hlw k h
        · exact hjw
      simp only [dbscan_bfs] at heq
      by_cases hvj : visited j = true
      · rw [if_pos hvj] at heq
        have hpre2 : ∀ k, nl k ≠ -1 → visited k = true := by
          intro k hk
          rcases hnl_ne k hk with h | rfl
          · exact hlv k h
          · exact hvj
        have hpre5 : ∀ j', j' < n → visited j' = true → min_samples ≤ (nb j').length →
            ∀ k ∈ nb j', nl k ≠ -1 ∨ k ∈ q := by
          intro j' hj' hv' hc' k hk
          rcases hob j' hj' hv' hc' k hk with h | h
          · exact Or.inl (by rw [hnl_old k h]; exact h)
          · rcases List.mem_cons.mp h with rfl | h
            · exact Or.inl hnlj
            · exact Or.inr h
        obtain ⟨a1, a2, a3, a4, a5, a6, a7⟩ := ih nl visited q labels2 visited2 heq
          (fun k hk => hq k (List.mem_cons_of_mem _ hk)) hpre2
          (fun k hk => hqw k (List.mem_cons_of_mem _ hk)) hnl_w hpre5
        refine ⟨?_, a2, ?_, a4, a5, a6, a7⟩
        · intro k hk
          rw [a1 k (by rw [hnl_old k hk]; exact hk), hnl_old k hk]
        · intro k
          rcases a3 k with h | h
          · rcases hnl_or k with h' | h'
            · exact Or.inl (h.trans h')
            · exact Or.inr ⟨h.trans h'.1, h'.2⟩
          · exact Or.inr h
      · rw [if_neg hvj] at heq
        have hvjf : visited j = false := by
          cases h : visited j
          · rfl
          · exact absurd h hvj
        have hvmono : ∀ k, visited k = true → (Function.update visited j true) k = true := by
          intro k hk
          rcases eq_or_ne k j with rfl | hkj
          · simp
          · rwa [Function.update_noteq hkj _ _]
        have hpre2 : ∀ k, nl k ≠ -1 → (Function.update visited j true) k = true := by
          intro k hk
          rcases hnl_ne k hk with h | rfl
          · exact hvmono k (hlv k h)
          · simp
        have ha7pre : ∀ k, ¬ k < n → (Function.update visited j true) k = visited k :=
          fun k hk => Function.update_noteq (by intro h; subst h; exact hk hjn) _ _
        by_cases hcore : min_samples ≤ (nb j).length
        · rw [if_pos hcore] at heq
          have hpre1 : ∀ k ∈ q ++ nb j, k < n := by
            intro k hk
            rcases List.mem_append.mp hk with h | h
            · exact hq k (List.mem_cons_of_mem _ h)
            · exact hnb j k h
          have hpre3 : ∀ k ∈ q ++ nb j, nearCore n nb min_samples k := by
            intro k hk
            rcases List.mem_append.mp hk with h | h
            · exact hqw k (List.mem_cons_of_mem _ h)
            · exact ⟨j, hjn, hcore, h⟩
          have hpre5 : ∀ j', j' < n → (Function.update visited j true) j' = true →
              min_samples ≤ (nb j').length → ∀ k ∈ nb j', nl k ≠ -1 ∨ k ∈ q ++ nb j := by
            intro j' hj' hv' hc' k hk
            rcases eq_or_ne j' j with rfl | hj'j
            · exact Or.inr (List.mem_append.mpr (Or.inr hk))
            · rw [Function.update_noteq hj'j _ _] at hv'
              rcases hob j' hj' hv' hc' k hk with h | h
              · exact Or.inl (by rw [hnl_old k h]; exact h)
              · rcases List.mem_cons.mp h with rfl | h
                · exact Or.inl hnlj
                · exact Or.inr (List.mem_append.mpr (Or.inl h))
          obtain ⟨a1, a2, a3, a4, a5, a6, a7⟩ := ih nl (Function.update visited j true)
            (q ++ nb j) labels2 visited2 heq hpre1 hpre2 hpre3 hnl_w hpre5
          refine ⟨?_, fun k hk => a2 k (hvmono k hk), ?_, a4, a5, a6,
            fun k hk => (a7 k hk).trans (ha7pre k hk)⟩
          · intro k hk
            rw [a1 k (by rw [hnl_old k hk]; exact hk), hnl_old k hk]
          · intro k
            rcases a3 k with h | h
            · rcases hnl_or k with h' | h'
              · exact Or.inl (h.trans h')
              · exact Or.inr ⟨h.trans h'.1, h'.2⟩
            · exact Or.inr h
        · rw [if_neg hcore] at heq
          have hpre5 : ∀ j', j' < n → (Function.update visited j true) j' = true →
              min_samples ≤ (nb j').length → ∀ k ∈ nb j', nl k ≠ -1 ∨ k ∈ q := by
            intro j' hj' hv' hc' k hk
            rcases eq_or_ne j' j with rfl | hj'j
            · exact absurd hc' hcore
            · rw [Function.update_noteq hj'j _ _] at hv'
              rcases hob j' hj' hv' hc' k hk with h | h
              · exact Or.inl (by rw [hnl_old k h]; exact h)
              · rcases List.mem_cons.mp h with rfl | h
                · exact Or.inl hnlj
                · exact Or.inr h
          obtain ⟨a1, a2, a3, a4, a5, a6, a7⟩ := ih nl (Function.update visited j true)
            q labels2 visited2 heq (fun k hk => hq k (List.mem_cons_of_mem _ hk)) hpre2
            (fun k hk => hqw k (List.mem_cons_of_mem _ hk)) hnl_w hpre5
          refine ⟨?_, fun k hk => a2 k (hvmono k hk), ?_, a4, a5, a6,
            fun k hk => (a7 k hk).trans (ha7pre k hk)⟩
          · intro k hk
            rw [a1 k (by rw [hnl_old k hk]; exact hk), hnl_old k hk]
          · intro k
            rcases a3 k with h | h
            · rcases hnl_or k with h' | h'
              · exact Or.inl (h.trans h')
              · exact Or.inr ⟨h.trans h'.1, h'.2⟩
            · exact Or.inr h

/-- Fuel sufficiency for the BFS: every step pops one queue entry, and the
total work is bounded by the queue length plus the neighbor lists of the
still-unvisited points. -/
lemma dbscan_bfs_total {n : ℕ} {nb : ℕ → List ℕ} {min_samples : ℕ}
    (hnb : ∀ i, ∀ k ∈ nb i, k < n) (cid : ℤ) :
    ∀ fuel : ℕ, ∀ labels : ℕ → ℤ, ∀ visited : ℕ → Bool, ∀ q : List ℕ,
    (∀ j ∈ q, j < n) →
    q.length + ∑ k in Finset.range n, (if visited k then 0 else 1 + (nb k).length) ≤ fuel →
    ∃ r, dbscan_bfs nb min_samples cid fuel labels visited q = some r := by
  intro fuel
  induction fuel with
  | zero =>
    intro labels visited q hq hm
    cases q with
    | nil => exact ⟨_, dbscan_bfs_nil ..⟩
    | cons j q => simp at hm
  | succ fuel ih =>
    intro labels visited q hq hm
    cases q with
    | nil => exact ⟨_, dbscan_bfs_nil ..⟩
    | cons j q =>
      have hjn : j < n := hq j (by simp)
      simp only [List.length_cons] at hm
      simp only [dbscan_bfs]
      by_cases hvj : visited j = true
      · rw [if_pos hvj]
        exact ih _ _ q (fun k hk => hq k (List.mem_cons_of_mem _ hk)) (by omega)
      · have hvjf : visited j = false := by
          cases h : visited j
          · rfl
          · exact absurd h hvj
        rw [if_neg hvj]
        have hsum : (∑ k in Finset.range n,
              (if (Function.update visited j true) k then 0 else 1 + (nb k).length))
              + (1 + (nb j).length)
            = ∑ k in Finset.range n, (if visited k then 0 else 1 + (nb k).length) := by
          rw [← Finset.add_sum_erase _ _ (Finset.mem_range.mpr hjn),
            ← Finset.add_sum_erase _
              (fun k => if visited k then 0 else 1 + (nb k).length)
              (Finset.mem_range.mpr hjn)]
          have h1 : (if (Function.update visited j true) j then 0
              else 1 + (nb j).length) = 0 := by simp
          have h2 : (if visited j then 0 else 1 + (nb j).length)
              = 1 + (nb j).length := by simp [hvjf]
          have h3 : ∀ k ∈ (Finset.range n).erase j,
              (if (Function.update visited j true) k then 0 else 1 + (nb k).length)
                = if visited k then 0 else 1 + (nb k).length := by
            intro k hk
            rw [Function.update_noteq (Finset.mem_erase.mp hk).1 _ _]
          rw [h1, h2, Finset.sum_congr rfl h3]
          ring
        by_cases hcore : min_samples ≤ (nb j).length
        · rw [if_pos hcore]
          apply ih _ _ (q ++ nb j)
          · intro k hk
            rcases List.mem_append.mp hk with h | h
            · exact hq k (List.mem_cons_of_mem _ h)
            · exact hnb j k h
          · rw [List.length_append]
            omega
        · rw [if_neg hcore]
          exact ih _ _ q (fun k hk => hq k (List.mem_cons_of_mem _ hk)) (by omega)

/-- The invariant carried across outer-loop iterations: labeled points are
visited and lie near a core point, neighborhoods of visited core points are
fully labeled, all labels are `-1` or in `[0, cid)`, and every id below
`cid` labels at least one point. -/
def dbInv (n : ℕ) (nb : ℕ → List ℕ) (min_samples : ℕ) (labels : ℕ → ℤ)
    (visited : ℕ → Bool) (cid : ℤ) : Prop :=
  (∀ k, labels k ≠ -1 → visited k = true) ∧
  (∀ k, labels k ≠ -1 → nearCore n nb min_samples k) ∧
  (∀ j, j < n → visited j = true → min_samples ≤ (nb j).length →
    ∀ k ∈ nb j, labels k ≠ -1) ∧
  (∀ k, labels k = -1 ∨ (0 ≤ labels k ∧ labels k < cid)) ∧
  (∀ c : ℤ, 0 ≤ c → c < cid → ∃ k, k < n ∧ labels k = c)

lemma dbscan_outer_spec {n : ℕ} {nb : ℕ → List ℕ} {min_samples : ℕ}
    (hnb : ∀ i, ∀ k ∈ nb i, k < n) (hself : ∀ i, i < n → i ∈ nb i) (F : ℕ) :
    ∀ is : List ℕ, ∀ cid : ℤ, ∀ labels : ℕ → ℤ, ∀ visited : ℕ → Bool,
      ∀ labels2 : ℕ → ℤ, ∀ visited2 : ℕ → Bool,
    dbscan_outer nb min_samples F is cid labels visited = some (labels2, visited2) →
    (∀ i ∈ is, i < n) → 0 ≤ cid →
    dbInv n nb min_samples labels visited cid →
    ∃ cid2 : ℤ, cid ≤ cid2 ∧ dbInv n nb min_samples labels2 visited2 cid2 ∧
      (∀ i ∈ is, visited2 i = true) ∧ (∀ k, visited k = true → visited2 k = true) := by
  intro is
  induction is with
  | nil =>
    intro cid labels visited labels2 visited2 heq his hcid hinv
    simp only [dbscan_outer, Option.some.injEq, Prod.mk.injEq] at heq
    obtain ⟨rfl, rfl⟩ := heq
    exact ⟨cid, le_refl _, hinv, by simp, fun k h => h⟩
  | cons i rest ih =>
    intro cid labels visited labels2 visited2 heq his hcid hinv
    have hin : i < n := his i (by simp)
    obtain ⟨inv1, inv2, inv3, inv4, inv5⟩ := hinv
    simp only [dbscan_outer] at heq
    by_cases hvi : visited i = true
    · rw [if_pos hvi] at heq
      obtain ⟨cid2, hle, hinv2, hvis, hmono⟩ := ih cid labels visited labels2 visited2 heq
        (fun k hk => his k (List.mem_cons_of_mem _ hk)) hcid ⟨inv1, inv2, inv3, inv4, inv5⟩
      refine ⟨cid2, hle, hinv2, ?_, hmono⟩
      intro k hk
      rcases List.mem_cons.mp hk with rfl | hk
      · exact hmono k hvi
      · exact hvis k hk
    · rw [if_neg hvi] at heq
      have hli : labels i = -1 := by
        by_contra h
        exact hvi (inv1 i h)
      have hvmono : ∀ k, visited k = true → (Function.update visited i true) k = true := by
        intro k hk
        rcases eq_or_ne k i with rfl | hki
        · simp
        · rwa [Function.update_noteq hki _ _]
      have hv1i : (Function.update visited i true) i = true := by simp
      by_cases hcore : (nb i).length < min_samples
      · rw [if_pos hcore] at heq
        have hlupd : Function.update labels i (-1) = labels := by
          funext k
          rcases eq_or_ne k i with rfl | hki
          · rw [Function.update_same, hli]
          · exact Function.update_noteq hki _ _
        rw [hlupd] at heq
        have hinv3' : ∀ j, j < n → (Function.update visited i true) j = true →
            min_samples ≤ (nb j).length → ∀ k ∈ nb j, labels k ≠ -1 := by
          intro j hj hvj hc k hk
          rcases eq_or_ne j i with rfl | hji
          · exact absurd hc (by omega)
          · rw [Function.update_noteq hji _ _] at hvj
            exact inv3 j hj hvj hc k hk
        obtain ⟨cid2, hle, hinv2, hvis, hmono⟩ := ih cid labels
          (Function.update visited i true) labels2 visited2 heq
          (fun k hk => his k (List.mem_cons_of_mem _ hk)) hcid
          ⟨fun k hk => hvmono k (inv1 k hk), inv2, hinv3', inv4, inv5⟩
        refine ⟨cid2, hle, hinv2, ?_, fun k hk => hmono k (hvmono k hk)⟩
        intro k hk
        rcases List.mem_cons.mp hk with rfl | hk
        · exact hmono k hv1i
        · exact hvis k hk
      · rw [if_neg hcore] at heq
        have hcore' : min_samples ≤ (nb i).length := by omega
        rcases hbfs : dbscan_bfs nb min_samples cid F (Function.update labels i cid)
            (Function.update visited i true) (nb i) with _ | ⟨l1, v1⟩
        · rw [hbfs] at heq
          exact absurd heq (by simp)
        · rw [hbfs] at heq
          have hnli : (Function.update labels i cid) i ≠ -1 := by simp; omega
          have hnl_old : ∀ k, labels k ≠ -1 →
              (Function.update labels i cid) k = labels k := by
            intro k hk
            rcases eq_or_ne k i with rfl | hki
            · exact absurd hli hk
            · exact Function.update_noteq hki _ _
          have hnl_ne : ∀ k, (Function.update labels i cid) k ≠ -1 →
              labels k ≠ -1 ∨ k = i := by
            intro k hk
            rcases eq_or_ne k i with rfl | hki
            · exact Or.inr rfl
            · rw [Function.update_noteq hki _ _] at hk
              exact Or.inl hk
          obtain ⟨a1, a2, a3, a4, a5, a6, a7⟩ := dbscan_bfs_spec hnb cid hcid F
            (Function.update labels i cid) (Function.update visited i true) (nb i)
            l1 v1 hbfs (hnb i)
            (by
              intro k hk
              rcases hnl_ne k hk with h | rfl
              · exact hvmono k (inv1 k h)
              · exact hv1i)
            (by intro k hk; exact ⟨i, hin, hcore', hk⟩)
            (by
              intro k hk
              rcases hnl_ne k hk with h | hki
              · exact inv2 k h
              · rw [hki]
                exact ⟨i, hin, hcore', hself i hin⟩)
            (by
              intro j hj hvj hc k hk
              rcases eq_or_ne j i with rfl | hji
              · exact Or.inr hk
              · rw [Function.update_noteq hji _ _] at hvj
                exact Or.inl (by
                  rw [hnl_old k (inv3 j hj hvj hc k hk)]
                  exact inv3 j hj hvj hc k hk))
          have hl1i : l1 i = cid := by
            rw [a1 i hnli]
            simp
          have hrange' : ∀ k, l1 k = -1 ∨ (0 ≤ l1 k ∧ l1 k < cid + 1) := by
            intro k
            rcases a3 k with h | h
            · rcases eq_or_ne k i with rfl | hki
              · rw [h]
                simp
                omega
              · rw [h, Function.update_noteq hki _ _]
                rcases inv4 k with h' | h'
                · exact Or.inl h'
                · exact Or.inr ⟨h'.1, by omega⟩
            · exact Or.inr ⟨by rw [h.1]; omega, by rw [h.1]; omega⟩
          have hinh' : ∀ c : ℤ, 0 ≤ c → c < cid + 1 → ∃ k, k < n ∧ l1 k = c := by
            intro c hc0 hc
            rcases lt_or_le c cid with hlt | hge
            · obtain ⟨k, hkn, hkc⟩ := inv5 c hc0 hlt
              have hkl : labels k ≠ -1 := by omega
              refine ⟨k, hkn, ?_⟩
              rw [a1 k (by rw [hnl_old k hkl]; exact hkl), hnl_old k hkl, hkc]
            · have : c = cid := by omega
              exact ⟨i, hin, by rw [hl1i, this]⟩
          obtain ⟨cid2, hle, hinv2, hvis, hmono⟩ := ih (cid + 1) l1 v1 labels2 visited2
            heq (fun k hk => his k (List.mem_cons_of_mem _ hk)) (by omega)
            ⟨a4, a5, a6, hrange', hinh'⟩
          refine ⟨cid2, by omega, hinv2, ?_, fun k hk => hmono k (a2 k (hvmono k hk))⟩
          intro k hk
          rcases List.mem_cons.mp hk with rfl | hk
          · exact hmono k (a2 k hv1i)
          · exact hvis k hk

/-- Fuel sufficiency through the outer loop. -/
lemma dbscan_outer_total {n : ℕ} {nb : ℕ → List ℕ} {min_samples : ℕ}
    (hnb : ∀ i, ∀ k ∈ nb i, k < n) (hlen : ∀ i, (nb i).length ≤ n) :
    ∀ is : List ℕ, ∀ cid : ℤ, ∀ labels : ℕ → ℤ, ∀ visited : ℕ → Bool,
    ∃ r, dbscan_outer nb min_samples (n * n + 2 * n + 1) is cid labels visited = some r := by
  intro is
  induction is with
  | nil => exact fun cid labels visited => ⟨_, rfl⟩
  | cons i rest ih =>
    intro cid labels visited
    simp only [dbscan_outer]
    by_cases hvi : visited i = true
    · rw [if_pos hvi]
      exact ih cid labels visited
    · rw [if_neg hvi]
      by_cases hcore : (nb i).length < min_samples
      · rw [if_pos hcore]
        exact ih cid _ _
      · rw [if_neg hcore]
        have hbound : (nb i).length + ∑ k in Finset.range n,
            (if (Function.update visited i true) k then 0 else 1 + (nb k).length)
            ≤ n * n + 2 * n + 1 := by
          have h1 : (nb i).length ≤ n := hlen i
          have h2 : ∑ k in Finset.range n,
              (if (Function.update visited i true) k then 0 else 1 + (nb k).length)
              ≤ ∑ _k in Finset.range n, (1 + n) := by
            apply Finset.sum_le_sum
            intro k _
            have := hlen k
            split <;> omega
          rw [Finset.sum_const, Finset.card_range, smul_eq_mul] at h2
          nlinarith
        obtain ⟨r, hr⟩ := dbscan_bfs_total hnb cid (n * n + 2 * n + 1)
          (Function.update labels i cid) (Function.update visited i true) (nb i)
          (hnb i) hbound
        rw [hr]
        obtain ⟨l1, v1⟩ := r
        exact ih (cid + 1) l1 v1

/-- `dbscan_cluster_indices(xyz, eps, min_samples)`: one label per input
point, `-1` for noise, cluster ids consecutive from 0 in scan order. -/
def dbscan_cluster_indices (xyz : List (ℚ × ℚ × ℚ)) (eps : ℚ) (min_samples : ℕ) :
    List ℤ :=
  let n := xyz.length
  let nb := neighbors_list xyz eps
  match dbscan_outer nb min_samples (n * n + 2 * n + 1) (List.range n) 0
      (fun _ => -1) (fun _ => false) with
  | some lv => (List.range n).map lv.1
  | none => (List.range n).map fun _ => -1

lemma neighbors_list_lt (xyz : List (ℚ × ℚ × ℚ)) (eps : ℚ) :
    ∀ i, ∀ k ∈ neighbors_list xyz eps i, k < xyz.length := by
  intro i k hk
  exact List.mem_range.mp (List.mem_filter.mp hk).1

lemma neighbors_list_len_le (xyz : List (ℚ × ℚ × ℚ)) (eps : ℚ) (i : ℕ) :
    (neighbors_list xyz eps i).length ≤ xyz.length := by
  calc (neighbors_list xyz eps i).length ≤ (List.range xyz.length).length :=
        List.length_filter_le _ _
    _ = xyz.length := List.length_range _

lemma d2xyz_nonneg (a b : ℚ × ℚ × ℚ) : 0 ≤ d2xyz a b := by
  unfold d2xyz
  have h1 := mul_self_nonneg (a.1 - b.1)
  have h2 := mul_self_nonneg (a.2.1 - b.2.1)
  have h3 := mul_self_nonneg (a.2.2 - b.2.2)
  linarith

lemma self_mem_neighbors_list (xyz : List (ℚ × ℚ × ℚ)) (eps : ℚ) (i : ℕ)
    (h : i < xyz.length) : i ∈ neighbors_list xyz eps i := by
  apply List.mem_filter.mpr
  refine ⟨List.mem_range.mpr h, ?_⟩
  simp only [decide_eq_true_eq]
  have hz : d2xyz (xyz.getD i (0, 0, 0)) (xyz.getD i (0, 0, 0)) = 0 := by
    simp [d2xyz]
  rw [hz]
  exact mul_self_nonneg eps

lemma mem_neighbors_list (xyz : List (ℚ × ℚ × ℚ)) (eps : ℚ) (i j : ℕ) :
    i ∈ neighbors_list xyz eps j ↔ i < xyz.length ∧
      d2xyz (xyz.getD i (0, 0, 0)) (xyz.getD j (0, 0, 0)) ≤ eps * eps := by
  simp [neighbors_list, List.mem_filter, List.mem_range]

/-- The run of `dbscan_cluster_indices`: the materialised labels come from a
label function satisfying the full invariant, with every index visited. -/
lemma dbscan_main (xyz : List (ℚ × ℚ × ℚ)) (eps : ℚ) (min_samples : ℕ) :
    ∃ labels2 : ℕ → ℤ, ∃ cid2 : ℤ, 0 ≤ cid2 ∧
      dbscan_cluster_indices xyz eps min_samples
        = (List.range xyz.length).map labels2 ∧
      (∀ k, k < xyz.length → (labels2 k ≠ -1 ↔
        nearCore xyz.length (neighbors_list xyz eps) min_samples k)) ∧
      (∀ k, labels2 k = -1 ∨ (0 ≤ labels2 k ∧ labels2 k < cid2)) ∧
      (∀ c : ℤ, 0 ≤ c → c < cid2 → ∃ k, k < xyz.length ∧ labels2 k = c) := by
  have hnb := neighbors_list_lt xyz eps
  have hlen := neighbors_list_len_le xyz eps
  have hself := self_mem_neighbors_list xyz eps
  obtain ⟨r, hr⟩ := dbscan_outer_total hnb hlen
    (List.range xyz.length) 0 (fun _ => -1) (fun _ => false)
  obtain ⟨l2, v2⟩ := r
  have hinit : dbInv xyz.length (neighbors_list xyz eps) min_samples
      (fun _ => -1) (fun _ => false) 0 := by
    refine ⟨fun k hk => absurd rfl hk, fun k hk => absurd rfl hk, ?_, fun k => Or.inl rfl, ?_⟩
    · intro j _ hv
      exact absurd hv (by simp)
    · intro c hc0 hc
      omega
  obtain ⟨cid2, hle, ⟨inv1, inv2, inv3, inv4, inv5⟩, hvis, _⟩ :=
    dbscan_outer_spec hnb hself (xyz.length * xyz.length + 2 * xyz.length + 1)
      (List.range xyz.length) 0 (fun _ => -1) (fun _ => false) l2 v2 hr
      (fun i hi => List.mem_range.mp hi) (le_refl 0) hinit
  refine ⟨l2, cid2, by omega, ?_, ?_, inv4, inv5⟩
  · unfold dbscan_cluster_indices
    dsimp only
    rw [hr]
  · intro k hk
    constructor
    · exact inv2 k
    · rintro ⟨j, hj, hcore, hkj⟩
      exact inv3 j hj (hvis j (List.mem_range.mpr hj)) hcore k hkj

lemma dbscan_length (xyz : List (ℚ × ℚ × ℚ)) (eps : ℚ) (min_samples : ℕ) :
    (dbscan_cluster_indices xyz eps min_samples).length = xyz.length := by
  unfold dbscan_cluster_indices
  dsimp only
  split <;> simp

/-! ## Step 1: bounds + optional SNR filtering (main, lines 368-390) -/

/-- The geometric keep-condition of Step 1 (lines 377-382). -/
def geom_ok (cfg : Config) (p : Pt) : Prop :=
  |p.x| ≤ cfg.MAX_ABS_X ∧ cfg.MIN_Y ≤ p.y ∧ p.y ≤ cfg.MAX_Y ∧
    |p.z| ≤ cfg.MAX_ABS_Z ∧ |p.v| ≤ cfg.MAX_ABS_V

instance (cfg : Config) (p : Pt) : Decidable (geom_ok cfg p) := by
  unfold geom_ok; infer_instance

/-- The per-frame SNR list (main, lines 368-370): available only when the
side-info record count matches the point count, else `none`. -/
def frame_snrs (pts : List Pt) (side : Option (List (ℤ × ℤ))) : Option (List ℤ) :=
  match side with
  | some s => if s.length = pts.length then some (s.map Prod.fst) else none
  | none => none

/-- The Step 1 filtering loop over the enumerated points, keeping the
enumerated entries that pass the geometry bounds and (when SNR data is
available) the minimum-SNR test. -/
def step1_go (cfg : Config) (snrs : Option (List ℤ)) : List (ℕ × Pt) → List (ℕ × Pt)
  | [] => []
  | (i, p) :: rest =>
    if ¬ geom_ok cfg p then step1_go cfg snrs rest
    else
      match snrs with
      | some s =>
        if s.getD i 0 < cfg.MIN_SNR then step1_go cfg snrs rest
        else (i, p) :: step1_go cfg snrs rest
      | none => (i, p) :: step1_go cfg snrs rest

/-- `cand_pts` of Step 1. -/
def cand_pts (cfg : Config) (pts : List Pt) (side : Option (List (ℤ × ℤ))) : List Pt :=
  (step1_go cfg (frame_snrs pts side) pts.enum).map Prod.snd

/-- `cand_snrs` of Step 1 (`None` when quality is unavailable). -/
def cand_snrs (cfg : Config) (pts : List Pt) (side : Option (List (ℤ × ℤ))) :
    Option (List ℤ) :=
  match frame_snrs pts side with
  | some s => some ((step1_go cfg (some s) pts.enum).map fun ip => s.getD ip.1 0)
  | none => none

/-! ## Cluster selector (`pick_best_cluster`, lines 245-297) -/

/-- Append index `i` to the entry of label `lab`, creating the entry at the
end when new (`clusters.setdefault(lab, []).append(i)` with dict insertion
order). -/
def add_to_clusters (cs : List (ℤ × List ℕ)) (lab : ℤ) (i : ℕ) : List (ℤ × List ℕ) :=
  match cs with
  | [] => [(lab, [i])]
  | (l, xs) :: t =>
    if l = lab then (l, xs ++ [i]) :: t else (l, xs) :: add_to_clusters t lab i

/-- `cluster_id -> point indices` in first-encountered order, skipping
negative (noise) labels (lines 257-261). -/
def clusters_of (labels : List ℤ) : List (ℤ × List ℕ) :=
  labels.enum.foldl (fun cs il => if il.2 < 0 then cs else add_to_clusters cs il.2 il.1) []

/-- `cluster_center_y` (lines 266-269): sort the y values and take the
element at index `len // 2` — the upper middle element for even sizes,
which coincides with the median only for odd sizes. -/
def cluster_center_y (points : List Pt) (idxs : List ℕ) : ℚ :=
  (List.insertionSort (· ≤ ·) (idxs.map fun i => (points.getD i pt0).y)).getD
    (idxs.length / 2) 0

/-- Mean SNR over the cluster (`np.mean`), 0 when quality is unavailable or
misaligned (lines 283-286). -/
def cluster_mean_snr (points : List Pt) (snrs : Option (List ℤ)) (idxs : List ℕ) : ℚ :=
  match snrs with
  | some s =>
    if s.length = points.length
    then (idxs.map fun i => (s.getD i 0 : ℚ)).sum / idxs.length
    else 0
  | none => 0

/-- The cluster score (lines 275-294): higher is better. -/
noncomputable def cluster_score (points : List Pt) (snrs : Option (List ℤ))
    (idxs : List ℕ) : ℝ :=
  let n := idxs.length
  let cluster_pts := idxs.map fun i => points.getD i pt0
  let c := robust_center cluster_pts
  let mr := median_radius cluster_pts c
  let mean_abs_v : ℚ := (idxs.map fun i => |(points.getD i pt0).v|).sum / (max 1 n)
  let cy := cluster_center_y points idxs
  (n : ℝ) + 0.02 * (cluster_mean_snr points snrs idxs : ℝ) - 0.8 * mr
    + 0.4 * (mean_abs_v : ℝ) - 0.05 * (cy : ℝ)

open Classical in
/-- Python's `max(pool, key=score)` starting from a current best: a later
element replaces the best only when strictly better, so the first maximal
element wins ties. -/
noncomputable def max_by_score (points : List Pt) (snrs : Option (List ℤ)) :
    List (ℤ × List ℕ) → (ℤ × List ℕ) → (ℤ × List ℕ)
  | [], best => best
  | c :: rest, best =>
    max_by_score points snrs rest
      (if cluster_score points snrs best.2 < cluster_score points snrs c.2 then c else best)

open Classical in
/-- `pick_best_cluster` (lines 245-297): group indices by non-noise label,
restrict to "near" clusters (upper-middle y at most `PREF_Y_MAX`) when any
exist, and return the point indices of the score-maximal cluster of the
pool (first encountered wins ties). -/
noncomputable def pick_best_cluster (cfg : Config) (points : List Pt)
    (snrs : Option (List ℤ)) (labels : List ℤ) : List ℕ :=
  if labels.length = 0 then []
  else
    match clusters_of labels with
    | [] => []
    | c0 :: rest =>
      let near := (c0 :: rest).filter fun c =>
        decide (cluster_center_y points c.2 ≤ cfg.PREF_Y_MAX)
      let pool := if near.isEmpty then c0 :: rest else near
      match pool with
      | [] => []
      | p0 :: ps => (max_by_score points snrs ps p0).2

/-! ## Person estimator (`build_person_obj`, lines 300-328, and Step 2 of
`main`, lines 392-413) -/

/-- The per-frame person estimate.  The source emits a JSON object; the
3-decimal rounding of the emitted numbers is output formatting and is not
modelled. -/
structure PersonObj where
  present : Bool
  confidence : ℝ
  center : Pt
  num_points : ℕ
  points : List Pt

/-- `{"present": False}`: the numeric fields absent from the no-person
object are modelled as zero / empty. -/
noncomputable def noPerson : PersonObj := ⟨false, 0, pt0, 0, []⟩

/-- `build_person_obj(best_pts)`: robust center of the full cluster, then
cap to the `MAX_POINTS` points nearest that center, and compute the
confidence from the capped subset. -/
noncomputable def build_person_obj (cfg : Config) (best_pts : List Pt) : PersonObj :=
  let center := robust_center best_pts
  let capped := cap_near_center best_pts center cfg.MAX_POINTS
  let mr := median_radius capped center
  let med_speed : ℚ := if capped = [] then 0 else medianList (capped.map fun p => |p.v|)
  let conf_count : ℝ := min 1 ((capped.length : ℝ) / 20)
  let conf_compact : ℝ := max 0 (1 - mr / max (1 / 1000000) (cfg.MAX_MEDIAN_RADIUS_M : ℝ))
  let conf_motion : ℝ :=
    if cfg.MIN_MEDIAN_SPEED_MPS ≤ 0 then 1
    else min 1 ((med_speed : ℝ) / max (1 / 1000000) (cfg.MIN_MEDIAN_SPEED_MPS : ℝ))
  let confidence : ℝ :=
    max 0 (min 1 (0.55 * conf_count + 0.40 * conf_compact + 0.05 * conf_motion))
  ⟨true, confidence, center, capped.length, capped⟩

open Classical in
/-- Step 2 of `main` (lines 392-413): cluster the candidate points (x, y, z
only), select the best cluster, and gate on size, compactness and the
optional minimum-speed threshold. -/
noncomputable def person_of (cfg : Config) (cand : List Pt)
    (snrs : Option (List ℤ)) : PersonObj :=
  if cand.length < cfg.MIN_PERSON_POINTS then noPerson
  else
    let labels := dbscan_cluster_indices (cand.map fun p => (p.x, p.y, p.z))
      cfg.CLUSTER_EPS_M cfg.CLUSTER_MIN_SAMPLES
    let best_idx := pick_best_cluster cfg cand snrs labels
    let best_pts := best_idx.map fun i => cand.getD i pt0
    if best_pts.length < cfg.MIN_PERSON_POINTS then noPerson
    else
      let c := robust_center best_pts
      let mr := median_radius best_pts c
      let med_speed : ℚ :=
        if best_pts = [] then 0 else medianList (best_pts.map fun p => |p.v|)
      if (cfg.MAX_MEDIAN_RADIUS_M : ℝ) < mr then noPerson
      else if 0 < cfg.MIN_MEDIAN_SPEED_MPS ∧ med_speed < cfg.MIN_MEDIAN_SPEED_MPS then
        noPerson
      else build_person_obj cfg best_pts

/-! ## Step 1 lemmas -/

lemma step1_go_none (cfg : Config) :
    ∀ l : List (ℕ × Pt),
      step1_go cfg none l = l.filter fun ip => decide (geom_ok cfg ip.2) := by
  intro l
  induction l with
  | nil => rfl
  | cons ip rest ih =>
    obtain ⟨i, p⟩ := ip
    by_cases h : geom_ok cfg p
    · simp [step1_go, h, ih]
    · simp [step1_go, h, ih]

lemma step1_go_some (cfg : Config) (s : List ℤ) :
    ∀ l : List (ℕ × Pt),
      step1_go cfg (some s) l = l.filter fun ip =>
        decide (geom_ok cfg ip.2) && decide (cfg.MIN_SNR ≤ s.getD ip.1 0) := by
  intro l
  induction l with
  | nil => rfl
  | cons ip rest ih =>
    obtain ⟨i, p⟩ := ip
    simp only [step1_go]
    by_cases h : geom_ok cfg p
    · rw [if_neg (not_not_intro h)]
      by_cases hs : s.getD i 0 < cfg.MIN_SNR
      · rw [if_pos hs, ih, List.filter_cons_of_neg]
        simp only [Bool.and_eq_true, decide_eq_true_eq, not_and]
        exact fun _ => by omega
      · rw [if_neg hs, ih, List.filter_cons_of_pos]
        simp only [Bool.and_eq_true, decide_eq_true_eq]
        exact ⟨h, by omega⟩
    · rw [if_pos h, ih, List.filter_cons_of_neg]
      simp [h]

lemma step1_go_sublist (cfg : Config) (snrs : Option (List ℤ)) :
    ∀ l : List (ℕ × Pt), (step1_go cfg snrs l).Sublist l := by
  intro l
  induction l with
  | nil => simp [step1_go]
  | cons ip rest ih =>
    obtain ⟨i, p⟩ := ip
    by_cases h : geom_ok cfg p
    · cases snrs with
      | none => simpa [step1_go, h] using ih.cons₂ (i, p)
      | some s =>
        by_cases hs : s.getD i 0 < cfg.MIN_SNR
        · simp only [step1_go, if_neg (not_not_intro h), if_pos hs]
          exact ih.cons _
        · simp only [step1_go, if_neg (not_not_intro h), if_neg hs]
          exact ih.cons₂ _
    · simp only [step1_go, if_pos h]
      exact ih.cons _

/-- C8: Step 1 is a pure, order-preserving filter: with no quality data a
point is kept iff it passes the geometric bounds; with aligned quality data
a point is kept iff it passes the geometric bounds and its SNR reaches
`MIN_SNR` (a low SNR rejects the point regardless of geometry); when the
quality record count mismatches the point count, the frame is treated as
having no quality data; and the output is always a sublist (order
preserved) of the input points. -/
theorem step1_filter_spec :
    (∀ cfg : Config, ∀ pts : List Pt,
      cand_pts cfg pts none = pts.filter fun p => decide (geom_ok cfg p))
  ∧ (∀ cfg : Config, ∀ pts : List Pt, ∀ s : List (ℤ × ℤ), s.length = pts.length →
      cand_pts cfg pts (some s)
        = (pts.enum.filter fun ip => decide (geom_ok cfg ip.2)
            && decide (cfg.MIN_SNR ≤ (s.map Prod.fst).getD ip.1 0)).map Prod.snd)
  ∧ (∀ cfg : Config, ∀ pts : List Pt, ∀ s : List (ℤ × ℤ), s.length ≠ pts.length →
      cand_pts cfg pts (some s) = cand_pts cfg pts none
        ∧ cand_snrs cfg pts (some s) = none)
  ∧ (∀ cfg : Config, ∀ pts : List Pt, ∀ side : Option (List (ℤ × ℤ)),
      (cand_pts cfg pts side).Sublist pts) := by
  refine ⟨?_, ?_, ?_, ?_⟩
  · intro cfg pts
    unfold cand_pts frame_snrs
    rw [step1_go_none]
    calc (pts.enum.filter fun ip => decide (geom_ok cfg ip.2)).map Prod.snd
        = ((pts.enum.map Prod.snd).filter fun p => decide (geom_ok cfg p)) := by
          rw [List.filter_map]
          rfl
      _ = pts.filter fun p => decide (geom_ok cfg p) := by rw [List.enum_map_snd]
  · intro cfg pts s hlen
    unfold cand_pts frame_snrs
    dsimp only
    rw [if_pos (by simpa using hlen), step1_go_some]
  · intro cfg pts s hlen
    constructor
    · unfold cand_pts frame_snrs
      dsimp only
      rw [if_neg (by simpa using hlen)]
    · unfold cand_snrs frame_snrs
      dsimp only
      rw [if_neg (by simpa using hlen)]
  · intro cfg pts side
    unfold cand_pts
    have h1 := (step1_go_sublist cfg (frame_snrs pts side) pts.enum).map Prod.snd
    rwa [List.enum_map_snd] at h1

/-! ## Capping lemmas -/

lemma cap_near_center_length (pts : List Pt) (c : Pt) (m : ℕ) :
    (cap_near_center pts c m).length = min m pts.length := by
  unfold cap_near_center
  rw [List.length_take, List.length_insertionSort]

lemma cap_near_center_sorted (pts : List Pt) (c : Pt) (m : ℕ) :
    List.Pairwise (fun p q => dist2 p c ≤ dist2 q c) (cap_near_center pts c m) := by
  haveI : IsTotal Pt (fun p q => dist2 p c ≤ dist2 q c) := ⟨fun a b => le_total _ _⟩
  haveI : IsTrans Pt (fun p q => dist2 p c ≤ dist2 q c) :=
    ⟨fun a b d hab hbd => le_trans hab hbd⟩
  exact List.Pairwise.sublist (List.take_sublist _ _)
    (List.sorted_insertionSort (fun p q => dist2 p c ≤ dist2 q c) pts)

/-- The kept points are the nearest ones: every kept point is at most as far
from the center as every dropped point. -/
lemma cap_near_center_nearest (pts : List Pt) (c : Pt) (m : ℕ) :
    ∃ dropped : List Pt, (cap_near_center pts c m ++ dropped).Perm pts
      ∧ ∀ p ∈ cap_near_center pts c m, ∀ q ∈ dropped, dist2 p c ≤ dist2 q c := by
  haveI : IsTotal Pt (fun p q => dist2 p c ≤ dist2 q c) := ⟨fun a b => le_total _ _⟩
  haveI : IsTrans Pt (fun p q => dist2 p c ≤ dist2 q c) :=
    ⟨fun a b d hab hbd => le_trans hab hbd⟩
  refine ⟨(List.insertionSort (fun p q => dist2 p c ≤ dist2 q c) pts).drop m, ?_, ?_⟩
  · unfold cap_near_center
    rw [List.take_append_drop]
    exact List.perm_insertionSort _ pts
  · have hs := List.sorted_insertionSort (fun p q => dist2 p c ≤ dist2 q c) pts
    rw [← List.take_append_drop m
      (List.insertionSort (fun p q => dist2 p c ≤ dist2 q c) pts)] at hs
    exact fun p hp q hq => (List.pairwise_append.mp hs).2.2 p hp q hq

lemma getD_mem_or_default {α : Type} (l : List α) (i : ℕ) (d : α) :
    l.getD i d ∈ l ∨ l.getD i d = d := by
  rcases lt_or_le i l.length with hi | hi
  · left
    rw [List.getD_eq_getElem?_getD, List.getElem?_eq_getElem hi]
    exact List.getElem_mem hi
  · right
    rw [List.getD_eq_getElem?_getD, List.getElem?_eq_none hi]
    rfl

lemma medianList_nonneg {α : Type} [LinearOrderedField α]
    [DecidableRel ((· ≤ ·) : α → α → Prop)] {l : List α}
    (h : ∀ x ∈ l, 0 ≤ x) : 0 ≤ medianList l := by
  have hg : ∀ i : ℕ, 0 ≤ (List.insertionSort (· ≤ ·) l).getD i 0 := by
    intro i
    rcases getD_mem_or_default (List.insertionSort (· ≤ ·) l) i 0 with hm | hd
    · exact h _ ((List.perm_insertionSort _ l).mem_iff.mp hm)
    · rw [hd]
  unfold medianList
  split
  · exact hg _
  · have h1 := hg (l.length / 2 - 1)
    have h2 := hg (l.length / 2)
    positivity

lemma median_radius_nonneg (pts : List Pt) (c : Pt) : 0 ≤ median_radius pts c := by
  unfold median_radius
  apply medianList_nonneg
  intro x hx
  obtain ⟨p, _, rfl⟩ := List.mem_map.mp hx
  exact Real.sqrt_nonneg _

/-- The confidence combination of `build_person_obj` as a function of the
capped point count, the median radius and the median speed. -/
noncomputable def confidence_formula (cfg : Config) (npts : ℕ) (mr : ℝ)
    (med_speed : ℚ) : ℝ :=
  max 0 (min 1 (0.55 * min 1 ((npts : ℝ) / 20)
    + 0.40 * max 0 (1 - mr / max (1 / 1000000) (cfg.MAX_MEDIAN_RADIUS_M : ℝ))
    + 0.05 * (if cfg.MIN_MEDIAN_SPEED_MPS ≤ 0 then 1
        else min 1 ((med_speed : ℝ) / max (1 / 1000000) (cfg.MIN_MEDIAN_SPEED_MPS : ℝ)))))

/-- The capped subset used by `build_person_obj`. -/
def capped_pts (cfg : Config) (best_pts : List Pt) : List Pt :=
  cap_near_center best_pts (robust_center best_pts) cfg.MAX_POINTS

/-- Median absolute radial speed of a point list (0 for the empty list, as
guarded in the source). -/
def med_speed_of (pts : List Pt) : ℚ :=
  if pts = [] then 0 else medianList (pts.map fun p => |p.v|)

/-- Every `person_of` outcome is the no-person object or a built person
object. -/
lemma person_of_cases (cfg : Config) (cand : List Pt) (snrs : Option (List ℤ)) :
    person_of cfg cand snrs = noPerson ∨
      ∃ bp : List Pt, person_of cfg cand snrs = build_person_obj cfg bp := by
  unfold person_of
  dsimp only
  split_ifs
  all_goals first
  | exact Or.inl rfl
  | exact Or.inr ⟨_, rfl⟩

lemma med_speed_of_nonneg (pts : List Pt) : 0 ≤ med_speed_of pts := by
  unfold med_speed_of
  split
  · exact le_refl 0
  · apply medianList_nonneg
    intro x hx
    obtain ⟨p, _, rfl⟩ := List.mem_map.mp hx
    exact abs_nonneg _

lemma cast_millionth_le {q : ℚ} (h : (1 : ℚ) / 1000000 ≤ q) :
    (1 : ℝ) / 1000000 ≤ (q : ℝ) := by
  rw [show (1 : ℝ) / 1000000 = ((1 / 1000000 : ℚ) : ℝ) by norm_num]
  exact Rat.cast_le.mpr h

/-- The confidence of `build_person_obj` with the `max(1e-6, ·)` guards
dropped, which is legitimate when the configured thresholds are at least
1e-6 (or the speed gate is off). -/
lemma build_confidence_unguarded (cfg : Config) (bp : List Pt)
    (hM : (1 : ℚ) / 1000000 ≤ cfg.MAX_MEDIAN_RADIUS_M)
    (hg : cfg.MIN_MEDIAN_SPEED_MPS ≤ 0 ∨ (1 : ℚ) / 1000000 ≤ cfg.MIN_MEDIAN_SPEED_MPS) :
    (build_person_obj cfg bp).confidence
      = max 0 (min 1 (0.55 * min 1 (((capped_pts cfg bp).length : ℝ) / 20)
        + 0.40 * max 0 (1 - median_radius (capped_pts cfg bp) (robust_center bp)
            / (cfg.MAX_MEDIAN_RADIUS_M : ℝ))
        + 0.05 * (if cfg.MIN_MEDIAN_SPEED_MPS ≤ 0 then (1 : ℝ)
            else min 1 ((med_speed_of (capped_pts cfg bp) : ℝ)
              / (cfg.MIN_MEDIAN_SPEED_MPS : ℝ))))) := by
  have hstart : (build_person_obj cfg bp).confidence
      = max 0 (min 1 (0.55 * min 1 (((capped_pts cfg bp).length : ℝ) / 20)
        + 0.40 * max 0 (1 - median_radius (capped_pts cfg bp) (robust_center bp)
            / max ((1 : ℝ) / 1000000) (cfg.MAX_MEDIAN_RADIUS_M : ℝ))
        + 0.05 * (if cfg.MIN_MEDIAN_SPEED_MPS ≤ 0 then (1 : ℝ)
            else min 1 ((med_speed_of (capped_pts cfg bp) : ℝ)
              / max ((1 : ℝ) / 1000000) (cfg.MIN_MEDIAN_SPEED_MPS : ℝ))))) := rfl
  have hMr : max ((1 : ℝ) / 1000000) (cfg.MAX_MEDIAN_RADIUS_M : ℝ)
      = (cfg.MAX_MEDIAN_RADIUS_M : ℝ) := max_eq_right (cast_millionth_le hM)
  rw [hstart, hMr]
  rcases hg with hg | hg
  · rw [if_pos hg, if_pos hg]
  · have hgate0 : ¬ cfg.MIN_MEDIAN_SPEED_MPS ≤ 0 := by
      have h6 : (0 : ℚ) < 1 / 1000000 := by norm_num
      intro hle
      linarith
    rw [if_neg hgate0, if_neg hgate0, max_eq_right (cast_millionth_le hg)]

/-- The confidence equals 1 exactly when all three terms saturate: at least
20 capped points, zero median radius, and the motion term saturated (no
gate, or median speed at least the gate). -/
lemma build_confidence_eq_one_iff (cfg : Config) (bp : List Pt)
    (hM : (1 : ℚ) / 1000000 ≤ cfg.MAX_MEDIAN_RADIUS_M)
    (hg : cfg.MIN_MEDIAN_SPEED_MPS ≤ 0 ∨ (1 : ℚ) / 1000000 ≤ cfg.MIN_MEDIAN_SPEED_MPS) :
    ((build_person_obj cfg bp).confidence = 1 ↔
      (20 ≤ (capped_pts cfg bp).length
        ∧ median_radius (capped_pts cfg bp) (robust_center bp) = 0
        ∧ (cfg.MIN_MEDIAN_SPEED_MPS ≤ 0
            ∨ cfg.MIN_MEDIAN_SPEED_MPS ≤ med_speed_of (capped_pts cfg bp)))) := by
  rw [build_confidence_unguarded cfg bp hM hg]
  have h6 : (0 : ℝ) < 1 / 1000000 := by norm_num
  set nR : ℝ := ((capped_pts cfg bp).length : ℝ) with hnR
  set mr : ℝ := median_radius (capped_pts cfg bp) (robust_center bp) with hmr
  set M : ℝ := (cfg.MAX_MEDIAN_RADIUS_M : ℝ) with hMdef
  set ms : ℝ := (med_speed_of (capped_pts cfg bp) : ℝ) with hms
  have hn0 : 0 ≤ nR := by positivity
  have hmr0 : 0 ≤ mr := median_radius_nonneg _ _
  have hM0 : 0 < M := lt_of_lt_of_le h6 (by rw [hMdef]; exact cast_millionth_le hM)
  have hms0 : 0 ≤ ms := by rw [hms]; exact_mod_cast med_speed_of_nonneg _
  set a : ℝ := min 1 (nR / 20) with ha
  set b : ℝ := max 0 (1 - mr / M) with hb
  set c : ℝ := (if cfg.MIN_MEDIAN_SPEED_MPS ≤ 0 then (1 : ℝ)
      else min 1 (ms / (cfg.MIN_MEDIAN_SPEED_MPS : ℝ))) with hc
  have ha0 : 0 ≤ a := le_min zero_le_one (by positivity)
  have ha1 : a ≤ 1 := min_le_left _ _
  have hb0 : 0 ≤ b := le_max_left _ _
  have hb1 : b ≤ 1 := max_le zero_le_one (by
    have := div_nonneg hmr0 hM0.le
    linarith)
  have hc0 : 0 ≤ c := by
    rw [hc]
    split
    · exact zero_le_one
    · rename_i hgate
      have hgp : (0 : ℝ) < (cfg.MIN_MEDIAN_SPEED_MPS : ℝ) := by
        rcases hg with hg | hg
        · exact absurd hg hgate
        · exact lt_of_lt_of_le h6 (cast_millionth_le hg)
      exact le_min zero_le_one (div_nonneg hms0 hgp.le)
  have hc1 : c ≤ 1 := by
    rw [hc]
    split
    · exact le_refl 1
    · exact min_le_left _ _
  have hS0 : 0 ≤ 0.55 * a + 0.40 * b + 0.05 * c := by linarith
  have hS1 : 0.55 * a + 0.40 * b + 0.05 * c ≤ 1 := by linarith
  rw [min_eq_right hS1, max_eq_right hS0]
  have hsplit : 0.55 * a + 0.40 * b + 0.05 * c = 1 ↔ a = 1 ∧ b = 1 ∧ c = 1 := by
    constructor
    · intro hS
      refine ⟨by linarith, by linarith, by linarith⟩
    · rintro ⟨ra, rb, rc⟩
      rw [ra, rb, rc]
      norm_num
  rw [hsplit]
  have hA : a = 1 ↔ 20 ≤ (capped_pts cfg bp).length := by
    rw [ha, min_eq_left_iff, one_le_div (by norm_num : (0 : ℝ) < 20), hnR]
    exact_mod_cast Iff.rfl
  have hB : b = 1 ↔ mr = 0 := by
    rw [hb]
    constructor
    · intro hmax
      rcases le_or_lt (1 - mr / M) 0 with hx | hx
      · rw [max_eq_left hx] at hmax
        norm_num at hmax
      · rw [max_eq_right hx.le] at hmax
        have hdiv : mr / M = 0 := by linarith
        rcases div_eq_zero_iff.mp hdiv with h | h
        · exact h
        · exact absurd h hM0.ne'
    · intro h0
      rw [h0]
      rw [zero_div]
      norm_num
  have hC : c = 1 ↔ (cfg.MIN_MEDIAN_SPEED_MPS ≤ 0
      ∨ cfg.MIN_MEDIAN_SPEED_MPS ≤ med_speed_of (capped_pts cfg bp)) := by
    rw [hc]
    split
    · rename_i hgate
      simp [hgate]
    · rename_i hgate
      have hgp : (0 : ℝ) < (cfg.MIN_MEDIAN_SPEED_MPS : ℝ) := by
        rcases hg with hg | hg
        · exact absurd hg hgate
        · exact lt_of_lt_of_le h6 (cast_millionth_le hg)
      rw [min_eq_left_iff, one_le_div hgp, hms]
      constructor
      · intro h
        exact Or.inr (by exact_mod_cast h)
      · intro h
        rcases h with h | h
        · exact absurd h hgate
        · exact_mod_cast h
  rw [hA, hB, hC]

/-! ## Cluster bookkeeping lemmas -/

lemma add_to_clusters_sum (cs : List (ℤ × List ℕ)) (lab : ℤ) (i : ℕ) :
    ((add_to_clusters cs lab i).map fun c => c.2.length).sum
      = ((cs.map fun c => c.2.length).sum) + 1 := by
  induction cs with
  | nil => simp [add_to_clusters]
  | cons c t ih =>
    obtain ⟨l, xs⟩ := c
    unfold add_to_clusters
    split
    · simp only [List.map_cons, List.sum_cons, List.length_append, List.length_cons,
        List.length_nil]
      omega
    · simp only [List.map_cons, List.sum_cons, ih]
      omega

lemma add_to_clusters_label (cs : List (ℤ × List ℕ)) (lab : ℤ) (i : ℕ) :
    ∀ c ∈ add_to_clusters cs lab i, c.1 = lab ∨ c ∈ cs := by
  induction cs with
  | nil =>
    intro c hc
    simp only [add_to_clusters, List.mem_singleton] at hc
    exact Or.inl (by rw [hc])
  | cons c0 t ih =>
    obtain ⟨l, xs⟩ := c0
    intro c hc
    unfold add_to_clusters at hc
    by_cases hl : l = lab
    · rw [if_pos hl] at hc
      rcases List.mem_cons.mp hc with hce | hc
      · exact Or.inl (by rw [hce]; exact hl)
      · exact Or.inr (List.mem_cons_of_mem _ hc)
    · rw [if_neg hl] at hc
      rcases List.mem_cons.mp hc with hce | hc
      · exact Or.inr (by rw [hce]; exact List.mem_cons_self _ _)
      · rcases ih c hc with h | h
        · exact Or.inl h
        · exact Or.inr (List.mem_cons_of_mem _ h)

lemma clusters_of_go_sum (l : List (ℕ × ℤ)) :
    ∀ cs : List (ℤ × List ℕ),
      (((l.foldl (fun cs il => if il.2 < 0 then cs else add_to_clusters cs il.2 il.1)
        cs).map fun c => c.2.length).sum)
      ≤ ((cs.map fun c => c.2.length).sum) + l.length := by
  induction l with
  | nil => intro cs; simp
  | cons il rest ih =>
    intro cs
    rw [List.foldl_cons]
    by_cases h : il.2 < 0
    · rw [if_pos h]
      have := ih cs
      simp only [List.length_cons]
      omega
    · rw [if_neg h]
      have := ih (add_to_clusters cs il.2 il.1)
      rw [add_to_clusters_sum] at this
      simp only [List.length_cons]
      omega

/-- Every cluster's point-index list is bounded by the label count. -/
lemma clusters_of_len_le (labels : List ℤ) :
    ∀ c ∈ clusters_of labels, c.2.length ≤ labels.length := by
  intro c hc
  have hmem : c.2.length ∈ ((clusters_of labels).map fun c => c.2.length) :=
    List.mem_map.mpr ⟨c, hc, rfl⟩
  have hle := List.single_le_sum (fun x _ => Nat.zero_le x) _ hmem
  have hsum := clusters_of_go_sum labels.enum []
  rw [List.enum_length] at hsum
  have hS : ((clusters_of labels).map fun c => c.2.length).sum ≤ labels.length := by
    unfold clusters_of
    simpa using hsum
  omega

/-- Every cluster entry carries a non-negative label occurring in the input
label list. -/
lemma clusters_of_label_mem (labels : List ℤ) :
    ∀ c ∈ clusters_of labels, 0 ≤ c.1 ∧ c.1 ∈ labels := by
  suffices h : ∀ l : List (ℕ × ℤ), ∀ cs : List (ℤ × List ℕ),
      (∀ c ∈ cs, 0 ≤ c.1 ∧ c.1 ∈ labels) →
      (∀ il ∈ l, il.2 ∈ labels) →
      ∀ c ∈ l.foldl (fun cs il => if il.2 < 0 then cs else add_to_clusters cs il.2 il.1) cs,
        0 ≤ c.1 ∧ c.1 ∈ labels by
    intro c hc
    refine h labels.enum [] (by simp) ?_ c hc
    intro il hil
    have hm : il.2 ∈ labels.enum.map Prod.snd := List.mem_map.mpr ⟨il, hil, rfl⟩
    rwa [List.enum_map_snd] at hm
  intro l
  induction l with
  | nil =>
    intro cs hcs _ c hc
    exact hcs c hc
  | cons il rest ih =>
    intro cs hcs hl c hc
    rw [List.foldl_cons] at hc
    by_cases h : il.2 < 0
    · rw [if_pos h] at hc
      exact ih cs hcs (fun x hx => hl x (List.mem_cons_of_mem _ hx)) c hc
    · rw [if_neg h] at hc
      refine ih (add_to_clusters cs il.2 il.1) ?_
        (fun x hx => hl x (List.mem_cons_of_mem _ hx)) c hc
      intro c' hc'
      rcases add_to_clusters_label cs il.2 il.1 c' hc' with hlab | hmem
      · exact ⟨by omega, by rw [hlab]; exact hl il (List.mem_cons_self _ _)⟩
      · exact hcs c' hmem

/-- With only noise labels no cluster is formed. -/
lemma clusters_of_all_noise (labels : List ℤ) (h : ∀ l ∈ labels, l < 0) :
    clusters_of labels = [] := by
  suffices hgen : ∀ l : List (ℕ × ℤ), (∀ il ∈ l, il.2 < 0) →
      l.foldl (fun cs il => if il.2 < 0 then cs else add_to_clusters cs il.2 il.1) [] = [] by
    refine hgen labels.enum ?_
    intro il hil
    apply h
    have hm : il.2 ∈ labels.enum.map Prod.snd := List.mem_map.mpr ⟨il, hil, rfl⟩
    rwa [List.enum_map_snd] at hm
  intro l hl
  induction l with
  | nil => rfl
  | cons il rest ih =>
    rw [List.foldl_cons, if_pos (hl il (List.mem_cons_self _ _))]
    exact ih fun x hx => hl x (List.mem_cons_of_mem _ hx)

lemma max_by_score_mem (points : List Pt) (snrs : Option (List ℤ)) :
    ∀ ps : List (ℤ × List ℕ), ∀ best : ℤ × List ℕ,
      max_by_score points snrs ps best ∈ best :: ps := by
  intro ps
  induction ps with
  | nil =>
    intro best
    simp [max_by_score]
  | cons c rest ih =>
    intro best
    unfold max_by_score
    split
    · have hin := ih c
      rcases List.mem_cons.mp hin with h | h
      · rw [h]
        simp
      · simp [List.mem_cons_of_mem, h]
    · have hin := ih best
      rcases List.mem_cons.mp hin with h | h
      · rw [h]
        simp
      · simp [List.mem_cons_of_mem, h]

/-- The selector returns `[]` or the index list of one of the clusters. -/
lemma pick_best_cluster_mem (cfg : Config) (points : List Pt)
    (snrs : Option (List ℤ)) (labels : List ℤ) :
    pick_best_cluster cfg points snrs labels = []
      ∨ ∃ c ∈ clusters_of labels, pick_best_cluster cfg points snrs labels = c.2 := by
  unfold pick_best_cluster
  split
  · exact Or.inl rfl
  · cases hcs : clusters_of labels with
    | nil =>
      exact Or.inl rfl
    | cons c0 rest =>
      dsimp only
      set pool := if ((c0 :: rest).filter fun c =>
          decide (cluster_center_y points c.2 ≤ cfg.PREF_Y_MAX)).isEmpty
        then c0 :: rest
        else (c0 :: rest).filter fun c =>
          decide (cluster_center_y points c.2 ≤ cfg.PREF_Y_MAX) with hpool
      cases hp : pool with
      | nil => exact Or.inl rfl
      | cons p0 ps =>
        right
        have hin : max_by_score points snrs ps p0 ∈ p0 :: ps :=
          max_by_score_mem points snrs ps p0
        rw [← hp] at hin
        have hmem : max_by_score points snrs ps p0 ∈ c0 :: rest := by
          rw [hpool] at hin
          by_cases hne : ((c0 :: rest).filter fun c =>
              decide (cluster_center_y points c.2 ≤ cfg.PREF_Y_MAX)).isEmpty
          · rw [if_pos hne] at hin
            exact hin
          · rw [if_neg hne] at hin
            exact List.mem_of_mem_filter hin
        exact ⟨max_by_score points snrs ps p0, hmem, rfl⟩

/-- `MAX_POINTS = 20` (environment override of the default 50). -/
def cfg20 : Config := { defaultConfig with MAX_POINTS := 20 }

/-- Thirty collinear points with distinct x = 0..29. -/
def pts30 : List Pt := (List.range 30).map fun k => ⟨(k : ℚ), 2, 1, 0⟩

/-- The 20 of `pts30` nearest the robust center (14.5, 2, 1, 0), in
ascending squared-distance order with ties kept in input order. -/
def pts30_nearest : List Pt :=
  ([14, 15, 13, 16, 12, 17, 11, 18, 10, 19, 9, 20, 8, 21, 7, 22, 6, 23, 5, 24] :
    List ℕ).map fun k => ⟨(k : ℚ), 2, 1, 0⟩

/-- Three points whose capped output is reordered by the squared-distance
sort even though no point is dropped. -/
def ptsOrder : List Pt := [⟨0, 4, 0, 0⟩, ⟨0, 2, 0, 0⟩, ⟨0, 3, 0, 0⟩]

/-- `ptsOrder` sorted by squared distance to its robust center (0, 3, 0, 0). -/
def ptsOrderSorted : List Pt := [⟨0, 3, 0, 0⟩, ⟨0, 4, 0, 0⟩, ⟨0, 2, 0, 0⟩]

/-- Ten points within radius 0.1 of (0, 2, 1). -/
def clusterA_xyz : List (ℚ × ℚ × ℚ) :=
  [(0, 2, 1),
   (0.05, 2.05, 1.05), (0.05, 2.05, 0.95),
   (0.05, 1.95, 1.05), (0.05, 1.95, 0.95),
   (-0.05, 2.05, 1.05), (-0.05, 2.05, 0.95),
   (-0.05, 1.95, 1.05), (-0.05, 1.95, 0.95),
   (0.1, 2, 1)]

/-- Eight points within radius 0.1 of (0, 5, 1). -/
def clusterB_xyz : List (ℚ × ℚ × ℚ) :=
  [(0.05, 5.05, 1.05), (0.05, 5.05, 0.95),
   (0.05, 4.95, 1.05), (0.05, 4.95, 0.95),
   (-0.05, 5.05, 1.05), (-0.05, 5.05, 0.95),
   (-0.05, 4.95, 1.05), (-0.05, 4.95, 0.95)]

/-! ## Median of a constant list -/

lemma replicate_getD {α : Type} (n i : ℕ) (a d : α) (h : i < n) :
    (List.replicate n a).getD i d = a := by
  rw [List.getD_eq_getElem?_getD, List.getElem?_replicate, if_pos h]
  rfl

lemma sorted_le_replicate {α : Type} [Preorder α] (m : ℕ) (a : α) :
    List.Sorted (· ≤ ·) (List.replicate m a) := by
  induction m with
  | zero => simp
  | succ k ih =>
    rw [List.replicate_succ, List.sorted_cons]
    exact ⟨fun b hb => by rw [List.eq_of_mem_replicate hb], ih⟩

lemma medianList_replicate {α : Type} [LinearOrderedField α]
    [DecidableRel ((· ≤ ·) : α → α → Prop)] (m : ℕ) (a : α) (hm : m ≠ 0) :
    medianList (List.replicate m a) = a := by
  have hsort : List.insertionSort (· ≤ ·) (List.replicate m a) = List.replicate m a :=
    List.Sorted.insertionSort_eq (sorted_le_replicate m a)
  unfold medianList
  dsimp only
  rw [hsort, List.length_replicate]
  by_cases hpar : m % 2 = 1
  · rw [if_pos hpar,
      replicate_getD m (m / 2) a 0 (Nat.div_lt_self (Nat.pos_of_ne_zero hm) one_lt_two)]
  · rw [if_neg hpar,
      replicate_getD m (m / 2 - 1) a 0 (by omega),
      replicate_getD m (m / 2) a 0 (Nat.div_lt_self (Nat.pos_of_ne_zero hm) one_lt_two),
      add_self_div_two]

/-! ## Presence gating (Step 2 of `main`) -/

/-- With only noise labels the selector returns no indices. -/
lemma pick_best_cluster_all_noise (cfg : Config) (points : List Pt)
    (snrs : Option (List ℤ)) (labels : List ℤ) (h : ∀ l ∈ labels, l < 0) :
    pick_best_cluster cfg points snrs labels = [] := by
  unfold pick_best_cluster
  split
  · rfl
  · rw [clusters_of_all_noise labels h]

/-- The DBSCAN labels computed by `main` for a candidate frame (x, y, z
only). -/
def frame_labels (cfg : Config) (cand : List Pt) : List ℤ :=
  dbscan_cluster_indices (cand.map fun p => (p.x, p.y, p.z))
    cfg.CLUSTER_EPS_M cfg.CLUSTER_MIN_SAMPLES

/-- `best_pts`: the points of the selected cluster, in index order. -/
noncomputable def best_pts_of (cfg : Config) (cand : List Pt)
    (snrs : Option (List ℤ)) : List Pt :=
  (pick_best_cluster cfg cand snrs (frame_labels cfg cand)).map fun i => cand.getD i pt0

lemma best_pts_of_len_le (cfg : Config) (cand : List Pt) (snrs : Option (List ℤ)) :
    (best_pts_of cfg cand snrs).length ≤ cand.length := by
  unfold best_pts_of
  rw [List.length_map]
  rcases pick_best_cluster_mem cfg cand snrs (frame_labels cfg cand) with h | ⟨c, hc, h⟩
  · rw [h]
    exact Nat.zero_le _
  · rw [h]
    calc c.2.length ≤ (frame_labels cfg cand).length := clusters_of_len_le _ c hc
      _ = cand.length := by
        unfold frame_labels
        rw [dbscan_length, List.length_map]

/-- `person_of` written as an explicit decision chain over the named
intermediate quantities. -/
lemma person_of_eq (cfg : Config) (cand : List Pt) (snrs : Option (List ℤ)) :
    person_of cfg cand snrs
      = if cand.length < cfg.MIN_PERSON_POINTS then noPerson
        else if (best_pts_of cfg cand snrs).length < cfg.MIN_PERSON_POINTS then noPerson
        else if (cfg.MAX_MEDIAN_RADIUS_M : ℝ)
            < median_radius (best_pts_of cfg cand snrs)
                (robust_center (best_pts_of cfg cand snrs)) then noPerson
        else if 0 < cfg.MIN_MEDIAN_SPEED_MPS
            ∧ med_speed_of (best_pts_of cfg cand snrs) < cfg.MIN_MEDIAN_SPEED_MPS then
          noPerson
        else build_person_obj cfg (best_pts_of cfg cand snrs) := rfl

/-- The full characterization of `present = false`, under a positive
minimum-size gate (the default is 4). -/
lemma person_of_present_iff (cfg : Config) (cand : List Pt)
    (snrs : Option (List ℤ)) (hmpp : 1 ≤ cfg.MIN_PERSON_POINTS) :
    ((person_of cfg cand snrs).present = false ↔
      ((∀ l ∈ frame_labels cfg cand, l < 0)
        ∨ (best_pts_of cfg cand snrs).length < cfg.MIN_PERSON_POINTS
        ∨ (cfg.MAX_MEDIAN_RADIUS_M : ℝ)
            < median_radius (best_pts_of cfg cand snrs)
                (robust_center (best_pts_of cfg cand snrs))
        ∨ (0 < cfg.MIN_MEDIAN_SPEED_MPS
            ∧ med_speed_of (best_pts_of cfg cand snrs) < cfg.MIN_MEDIAN_SPEED_MPS))) := by
  rw [person_of_eq]
  by_cases h1 : cand.length < cfg.MIN_PERSON_POINTS
  · rw [if_pos h1]
    exact iff_of_true rfl
      (Or.inr (Or.inl (lt_of_le_of_lt (best_pts_of_len_le cfg cand snrs) h1)))
  · rw [if_neg h1]
    by_cases h2 : (best_pts_of cfg cand snrs).length < cfg.MIN_PERSON_POINTS
    · rw [if_pos h2]
      exact iff_of_true rfl (Or.inr (Or.inl h2))
    · rw [if_neg h2]
      by_cases h3 : (cfg.MAX_MEDIAN_RADIUS_M : ℝ)
          < median_radius (best_pts_of cfg cand snrs)
              (robust_center (best_pts_of cfg cand snrs))
      · rw [if_pos h3]
        exact iff_of_true rfl (Or.inr (Or.inr (Or.inl h3)))
      · rw [if_neg h3]
        by_cases h4 : 0 < cfg.MIN_MEDIAN_SPEED_MPS
            ∧ med_speed_of (best_pts_of cfg cand snrs) < cfg.MIN_MEDIAN_SPEED_MPS
        · rw [if_pos h4]
          exact iff_of_true rfl (Or.inr (Or.inr (Or.inr h4)))
        · rw [if_neg h4]
          refine iff_of_false ?_ ?_
          · simp [build_person_obj]
          · rintro (hD1 | hD2 | hD3 | hD4)
            · have hpick := pick_best_cluster_all_noise cfg cand snrs
                (frame_labels cfg cand) hD1
              have hB : best_pts_of cfg cand snrs = [] := by
                unfold best_pts_of
                rw [hpick]
                rfl
              rw [hB] at h2
              exact h2 (by simpa using hmpp)
            · exact h2 hD2
            · exact h3 hD3
            · exact h4 hD4

/-! ## Selector characterization (`pick_best_cluster`) -/

/-- The candidate pool: the "near" clusters (upper-middle sorted y at most
`PREF_Y_MAX`) when at least one exists, all clusters otherwise
(lines 271-274). -/
def poolOf (cfg : Config) (points : List Pt) (cs : List (ℤ × List ℕ)) :
    List (ℤ × List ℕ) :=
  let near := cs.filter fun c => decide (cluster_center_y points c.2 ≤ cfg.PREF_Y_MAX)
  if near.isEmpty then cs else near

lemma poolOf_near (cfg : Config) (points : List Pt) (cs : List (ℤ × List ℕ))
    (h : ∃ c ∈ cs, cluster_center_y points c.2 ≤ cfg.PREF_Y_MAX) :
    poolOf cfg points cs
      = cs.filter fun c => decide (cluster_center_y points c.2 ≤ cfg.PREF_Y_MAX) := by
  obtain ⟨c, hc, hy⟩ := h
  have hmem : c ∈ cs.filter fun c => decide (cluster_center_y points c.2 ≤ cfg.PREF_Y_MAX) :=
    List.mem_filter.mpr ⟨hc, by simpa using hy⟩
  have hne : ¬ (cs.filter fun c =>
      decide (cluster_center_y points c.2 ≤ cfg.PREF_Y_MAX)).isEmpty = true := by
    rw [List.isEmpty_iff]
    intro hnil
    rw [hnil] at hmem
    exact List.not_mem_nil c hmem
  unfold poolOf
  dsimp only
  rw [if_neg hne]

lemma poolOf_far (cfg : Config) (points : List Pt) (cs : List (ℤ × List ℕ))
    (h : ∀ c ∈ cs, ¬ cluster_center_y points c.2 ≤ cfg.PREF_Y_MAX) :
    poolOf cfg points cs = cs := by
  have hnil : (cs.filter fun c =>
      decide (cluster_center_y points c.2 ≤ cfg.PREF_Y_MAX)) = [] := by
    rw [List.filter_eq_nil_iff]
    intro c hc
    simpa using h c hc
  unfold poolOf
  dsimp only
  rw [hnil]
  rfl

/-- `max(pool, key=score)` returns the first score-maximal element: every
earlier element scores strictly less, and nothing scores more. -/
lemma max_by_score_argmax (points : List Pt) (snrs : Option (List ℤ)) :
    ∀ ps : List (ℤ × List ℕ), ∀ best : ℤ × List ℕ, ∃ pre post,
      best :: ps = pre ++ (max_by_score points snrs ps best) :: post
      ∧ (∀ b ∈ pre, cluster_score points snrs b.2
          < cluster_score points snrs (max_by_score points snrs ps best).2)
      ∧ (∀ b ∈ best :: ps, cluster_score points snrs b.2
          ≤ cluster_score points snrs (max_by_score points snrs ps best).2) := by
  intro ps
  induction ps with
  | nil =>
    intro best
    refine ⟨[], [], by simp [max_by_score], by simp, ?_⟩
    intro b hb
    rw [List.mem_singleton] at hb
    rw [hb]
    exact le_refl _
  | cons c rest ih =>
    intro best
    by_cases hcmp : cluster_score points snrs best.2 < cluster_score points snrs c.2
    · have hres : max_by_score points snrs (c :: rest) best
          = max_by_score points snrs rest c := by
        rw [max_by_score, if_pos hcmp]
      obtain ⟨pre, post, heq, hlt, hle⟩ := ih c
      refine ⟨best :: pre, post, ?_, ?_, ?_⟩
      · rw [hres, List.cons_append, ← heq]
      · intro b hb
        rw [hres]
        rcases List.mem_cons.mp hb with hbb | hb
        · rw [hbb]
          exact lt_of_lt_of_le hcmp (hle c (List.mem_cons_self _ _))
        · exact hlt b hb
      · intro b hb
        rw [hres]
        rcases List.mem_cons.mp hb with hbb | hb
        · rw [hbb]
          exact le_of_lt (lt_of_lt_of_le hcmp (hle c (List.mem_cons_self _ _)))
        · exact hle b hb
    · have hres : max_by_score points snrs (c :: rest) best
          = max_by_score points snrs rest best := by
        rw [max_by_score, if_neg hcmp]
      obtain ⟨pre, post, heq, hlt, hle⟩ := ih best
      have hbestle : cluster_score points snrs best.2
          ≤ cluster_score points snrs (max_by_score points snrs rest best).2 :=
        hle best (List.mem_cons_self _ _)
      have hcle : cluster_score points snrs c.2
          ≤ cluster_score points snrs (max_by_score points snrs rest best).2 :=
        le_trans (le_of_not_lt hcmp) hbestle
      cases pre with
      | nil =>
        rw [List.nil_append] at heq
        have hr : max_by_score points snrs rest best = best := (List.cons.injEq _ _ _ _).mp heq |>.1.symm
        have hpost : post = rest := (List.cons.injEq _ _ _ _).mp heq |>.2.symm
        refine ⟨[], c :: post, ?_, by simp, ?_⟩
        · rw [hres, List.nil_append, hr, hpost]
        · intro b hb
          rw [hres]
          rcases List.mem_cons.mp hb with hbb | hb
          · rw [hbb]
            exact hbestle
          · rcases List.mem_cons.mp hb with hbb | hb
            · rw [hbb]
              exact hcle
            · exact hle b (List.mem_cons_of_mem _ hb)
      | cons q pre' =>
        rw [List.cons_append] at heq
        have hq : best = q := ((List.cons.injEq _ _ _ _).mp heq).1
        have hrest : rest = pre' ++ max_by_score points snrs rest best :: post :=
          ((List.cons.injEq _ _ _ _).mp heq).2
        refine ⟨best :: c :: pre', post, ?_, ?_, ?_⟩
        · rw [hres, List.cons_append, List.cons_append, ← hrest]
        · intro b hb
          rw [hres]
          rcases List.mem_cons.mp hb with hbb | hb
          · rw [hbb]
            have := hlt q (List.mem_cons_self _ _)
            rwa [← hq] at this
          · rcases List.mem_cons.mp hb with hbb | hb
            · rw [hbb]
              have hqlt := hlt q (List.mem_cons_self _ _)
              rw [← hq] at hqlt
              exact lt_of_le_of_lt (le_of_not_lt hcmp) hqlt
            · exact hlt b (List.mem_cons_of_mem _ hb)
        · intro b hb
          rw [hres]
          rcases List.mem_cons.mp hb with hbb | hb
          · rw [hbb]
            exact hbestle
          · rcases List.mem_cons.mp hb with hbb | hb
            · rw [hbb]
              exact hcle
            · exact hle b (List.mem_cons_of_mem _ hb)

/-- The selector on a frame with clusters: picks from the pool the index
list of the first score-maximal cluster. -/
lemma pick_best_cluster_argmax (cfg : Config) (points : List Pt)
    (snrs : Option (List ℤ)) (labels : List ℤ) (c0 : ℤ × List ℕ)
    (rest : List (ℤ × List ℕ)) (h0 : labels.length ≠ 0)
    (hcs : clusters_of labels = c0 :: rest) :
    ∃ chosen pre post,
      pick_best_cluster cfg points snrs labels = chosen.2
      ∧ poolOf cfg points (c0 :: rest) = pre ++ chosen :: post
      ∧ (∀ b ∈ pre, cluster_score points snrs b.2 < cluster_score points snrs chosen.2)
      ∧ (∀ b ∈ poolOf cfg points (c0 :: rest),
          cluster_score points snrs b.2 ≤ cluster_score points snrs chosen.2) := by
  have hpoolne : poolOf cfg points (c0 :: rest) ≠ [] := by
    unfold poolOf
    dsimp only
    by_cases hemp : ((c0 :: rest).filter fun c =>
        decide (cluster_center_y points c.2 ≤ cfg.PREF_Y_MAX)).isEmpty
    · rw [if_pos hemp]
      exact List.cons_ne_nil c0 rest
    · rw [if_neg hemp]
      intro hnil
      exact hemp (by rw [hnil]; rfl)
  obtain ⟨p0, ps, hpool⟩ : ∃ p0 ps, poolOf cfg points (c0 :: rest) = p0 :: ps := by
    cases hpn : poolOf cfg points (c0 :: rest) with
    | nil => exact absurd hpn hpoolne
    | cons a l => exact ⟨a, l, rfl⟩
  have hpick : pick_best_cluster cfg points snrs labels
      = (max_by_score points snrs ps p0).2 := by
    unfold pick_best_cluster
    rw [if_neg h0, hcs]
    have hstep : (match clusters_of labels with
        | [] => ([] : List ℕ)
        | c0 :: rest =>
          let near := (c0 :: rest).filter fun c =>
            decide (cluster_center_y points c.2 ≤ cfg.PREF_Y_MAX)
          let pool := if near.isEmpty then c0 :: rest else near
          match pool with
          | [] => []
          | p0 :: ps => (max_by_score points snrs ps p0).2) = (max_by_score points snrs ps p0).2 := by
      rw [hcs]
      show (match poolOf cfg points (c0 :: rest) with
        | [] => ([] : List ℕ)
        | p0 :: ps => (max_by_score points snrs ps p0).2) = _
      rw [hpool]
    rw [← hcs]
    exact hstep
  obtain ⟨pre, post, heq, hlt, hle⟩ := max_by_score_argmax points snrs ps p0
  refine ⟨max_by_score points snrs ps p0, pre, post, hpick, ?_, hlt, ?_⟩
  · rw [hpool, heq]
  · rw [hpool]
    exact hle

/-! ## Spec-side selector reading «median y» literally -/

/-- The median (in the statistical sense) of a cluster's y values — what
the specification text calls "median y-coordinate". -/
def cluster_median_y (points : List Pt) (idxs : List ℕ) : ℚ :=
  medianList (idxs.map fun i => (points.getD i pt0).y)

open Classical in
/-- The claimed score, with the statistical median y as the depth term. -/
noncomputable def cluster_score_med (points : List Pt) (snrs : Option (List ℤ))
    (idxs : List ℕ) : ℝ :=
  let n := idxs.length
  let cluster_pts := idxs.map fun i => points.getD i pt0
  let c := robust_center cluster_pts
  let mr := median_radius cluster_pts c
  let mean_abs_v : ℚ := (idxs.map fun i => |(points.getD i pt0).v|).sum / (max 1 n)
  let cy := cluster_median_y points idxs
  (n : ℝ) + 0.02 * (cluster_mean_snr points snrs idxs : ℝ) - 0.8 * mr
    + 0.4 * (mean_abs_v : ℝ) - 0.05 * (cy : ℝ)

open Classical in
/-- Fold of `max` by the claimed score. -/
noncomputable def max_by_score_med (points : List Pt) (snrs : Option (List ℤ)) :
    List (ℤ × List ℕ) → (ℤ × List ℕ) → (ℤ × List ℕ)
  | [], best => best
  | c :: rest, best =>
    max_by_score_med points snrs rest
      (if cluster_score_med points snrs best.2 < cluster_score_med points snrs c.2
       then c else best)

open Classical in
/-- The selector as the specification text describes it: "near" membership
and the score's depth term use the statistical median of the y values
rather than the sorted upper-middle element the code takes. -/
noncomputable def pick_best_cluster_med (cfg : Config) (points : List Pt)
    (snrs : Option (List ℤ)) (labels : List ℤ) : List ℕ :=
  if labels.length = 0 then []
  else
    match clusters_of labels with
    | [] => []
    | c0 :: rest =>
      let near := (c0 :: rest).filter fun c =>
        decide (cluster_median_y points c.2 ≤ cfg.PREF_Y_MAX)
      let pool := if near.isEmpty then c0 :: rest else near
      match pool with
      | [] => []
      | p0 :: ps => (max_by_score_med points snrs ps p0).2

/-! ## Concrete selector and gating instances -/

/-- A 4-point cluster with y values [2, 2, 4, 4]: statistical median y = 3,
code's upper-middle y = 4. -/
def ptsA : List Pt := [⟨0, 2, 0, 0⟩, ⟨0, 2, 0, 0⟩, ⟨0, 4, 0, 0⟩, ⟨0, 4, 0, 0⟩]

/-- A 20-point cluster concentrated at y = 6. -/
def ptsB : List Pt := List.replicate 20 ⟨0, 6, 0, 0⟩

def ptsC4 : List Pt := ptsA ++ ptsB

def labelsC4 : List ℤ := List.replicate 4 0 ++ List.replicate 20 1

def idxA : List ℕ := [0, 1, 2, 3]

def idxB : List ℕ :=
  [4, 5, 6, 7, 8, 9, 10, 11, 12, 13, 14, 15, 16, 17, 18, 19, 20, 21, 22, 23]

/-- Six tight points at y = 2 followed by twenty tight points at y = 6. -/
def ptsNearFar : List Pt := List.replicate 6 ⟨0, 2, 0, 0⟩ ++ List.replicate 20 ⟨0, 6, 0, 0⟩

def labelsNearFar : List ℤ := List.replicate 6 0 ++ List.replicate 20 1

/-- `CLUSTER_EPS_M = 4` so that widely scattered points still form one
cluster. -/
def cfgScatter : Config := { defaultConfig with CLUSTER_EPS_M := 4 }

/-- Six points at Euclidean distance exactly 2 from (0, 5, 1). -/
def ptsScatter : List Pt :=
  [⟨2, 5, 1, 0⟩, ⟨-2, 5, 1, 0⟩, ⟨0, 7, 1, 0⟩, ⟨0, 3, 1, 0⟩, ⟨0, 5, 3, 0⟩, ⟨0, 5, -1, 0⟩]

section ConcreteEval

attribute [local semireducible] Rat.add Rat.mul Rat.sub Rat.inv Rat.ofScientific

set_option maxRecDepth 8000

/-- C3: `dbscan_cluster_indices` returns one label per input point in input
order, each `-1` (noise) or a cluster id, the used cluster ids are exactly
`0, …, m-1` (assigned in scan order of the points starting the clusters), a
point is non-noise exactly when it lies in the neighborhood of a core point
(one whose Euclidean-eps-ball membership count in (x, y, z), itself
included, reaches `min_samples`), the neighborhood predicate is Euclidean
distance at most eps in (x, y, z) with velocity excluded, and the two
tight synthetic clusters (10 points around (0,2,1), 8 around (0,5,1), with
eps = 0.7 and min_samples = 3) get exactly labels 0 and 1 with correct
membership.  The result is a function of the input list alone, hence
deterministic for a fixed input order. -/
theorem dbscan_spec :
    (∀ xyz : List (ℚ × ℚ × ℚ), ∀ eps : ℚ, ∀ ms : ℕ,
      (dbscan_cluster_indices xyz eps ms).length = xyz.length)
  ∧ (∀ xyz : List (ℚ × ℚ × ℚ), ∀ eps : ℚ, ∀ ms : ℕ, ∃ m : ℤ, 0 ≤ m ∧
      (∀ l ∈ dbscan_cluster_indices xyz eps ms, l = -1 ∨ (0 ≤ l ∧ l < m)) ∧
      (∀ c : ℤ, 0 ≤ c → c < m → c ∈ dbscan_cluster_indices xyz eps ms))
  ∧ (∀ xyz : List (ℚ × ℚ × ℚ), ∀ eps : ℚ, ∀ ms : ℕ, ∀ i : ℕ, i < xyz.length →
      ((dbscan_cluster_indices xyz eps ms).getD i (-1) ≠ -1 ↔
        ∃ j, j < xyz.length ∧ ms ≤ (neighbors_list xyz eps j).length ∧
          i ∈ neighbors_list xyz eps j))
  ∧ (∀ xyz : List (ℚ × ℚ × ℚ), ∀ eps : ℚ, ∀ i j : ℕ, 0 ≤ eps →
      (i ∈ neighbors_list xyz eps j ↔ i < xyz.length ∧
        Real.sqrt ((d2xyz (xyz.getD i (0, 0, 0)) (xyz.getD j (0, 0, 0)) : ℚ) : ℝ)
          ≤ (eps : ℝ)))
  ∧ dbscan_cluster_indices (clusterA_xyz ++ clusterB_xyz) 0.7 3
      = List.replicate 10 0 ++ List.replicate 8 1 := by
  refine ⟨dbscan_length, ?_, ?_, ?_, by decide⟩
  · intro xyz eps ms
    obtain ⟨l2, cid2, hc0, hL, _hiff, h4, h5⟩ := dbscan_main xyz eps ms
    refine ⟨cid2, hc0, ?_, ?_⟩
    · intro l hl
      rw [hL] at hl
      obtain ⟨i, _hi, rfl⟩ := List.mem_map.mp hl
      exact h4 i
    · intro c hc0' hc
      obtain ⟨k, hk, hkc⟩ := h5 c hc0' hc
      rw [hL]
      exact List.mem_map.mpr ⟨k, List.mem_range.mpr hk, hkc⟩
  · intro xyz eps ms i hi
    obtain ⟨l2, cid2, _hc0, hL, hiff, _h4, _h5⟩ := dbscan_main xyz eps ms
    have hgd : (dbscan_cluster_indices xyz eps ms).getD i (-1) = l2 i := by
      rw [hL, List.getD_eq_getElem?_getD, List.getElem?_map,
        List.getElem?_range hi]
      rfl
    rw [hgd]
    exact hiff i hi
  · intro xyz eps i j heps
    rw [mem_neighbors_list]
    have hd2 : (0 : ℝ) ≤ ((d2xyz (xyz.getD i (0, 0, 0)) (xyz.getD j (0, 0, 0)) : ℚ) : ℝ) := by
      exact_mod_cast d2xyz_nonneg _ _
    have heps2 : ((eps * eps : ℚ) : ℝ) = ((eps : ℝ)) ^ 2 := by
      push_cast
      ring
    have hsq : Real.sqrt (((eps * eps : ℚ)) : ℝ) = (eps : ℝ) := by
      rw [heps2, Real.sqrt_sq (by exact_mod_cast heps)]
    constructor
    · rintro ⟨hi, hd⟩
      refine ⟨hi, ?_⟩
      rw [← hsq]
      apply Real.sqrt_le_sqrt
      exact_mod_cast hd
    · rintro ⟨hi, hd⟩
      refine ⟨hi, ?_⟩
      rw [← hsq] at hd
      have := (Real.sqrt_le_sqrt_iff (by positivity)).mp hd
      exact_mod_cast this

/-- C7: the reported center of the person object is the per-axis median of
the full winning cluster, computed before capping, and the reported points
are the `MAX_POINTS` points nearest that center (stable ascending sort by
squared distance): the kept points dominate every dropped point in
closeness to the center.  In particular a 30-point cluster capped to
`MAX_POINTS = 20` keeps exactly the 20 points nearest the center and
reports the pre-cap robust center (14.5, 2, 1, 0) exactly. -/
theorem build_person_obj_center_spec :
    (∀ cfg : Config, ∀ best_pts : List Pt,
      (build_person_obj cfg best_pts).center = robust_center best_pts)
  ∧ (∀ cfg : Config, ∀ best_pts : List Pt,
      (build_person_obj cfg best_pts).points
        = cap_near_center best_pts (robust_center best_pts) cfg.MAX_POINTS)
  ∧ (∀ cfg : Config, ∀ best_pts : List Pt, ∃ dropped : List Pt,
      ((build_person_obj cfg best_pts).points ++ dropped).Perm best_pts
      ∧ ∀ p ∈ (build_person_obj cfg best_pts).points, ∀ q ∈ dropped,
          dist2 p (robust_center best_pts) ≤ dist2 q (robust_center best_pts))
  ∧ ((build_person_obj cfg20 pts30).center = ⟨29/2, 2, 1, 0⟩
      ∧ robust_center pts30 = ⟨29/2, 2, 1, 0⟩
      ∧ (build_person_obj cfg20 pts30).points = pts30_nearest
      ∧ (build_person_obj cfg20 pts30).num_points = 20) := by
  refine ⟨fun cfg best_pts => rfl, fun cfg best_pts => rfl, ?_, by decide, by decide,
    by decide, by decide⟩
  intro cfg best_pts
  exact cap_near_center_nearest best_pts (robust_center best_pts) cfg.MAX_POINTS

/-- C10: the person object is built from the capped subset: `points` has
length `min MAX_POINTS (cluster size)` and is sorted ascending by squared
distance to the reported (pre-cap) center, `num_points` is the capped
count, and the confidence is the weighted formula evaluated on the capped
subset's count, its median radius to the pre-cap center, and its median
speed.  The sort is applied even when no point is dropped, so the original
point order is in general not preserved (witnessed by a 3-point cluster). -/
theorem build_person_obj_capped_spec :
    (∀ cfg : Config, ∀ best_pts : List Pt,
      (build_person_obj cfg best_pts).num_points
        = (build_person_obj cfg best_pts).points.length)
  ∧ (∀ cfg : Config, ∀ best_pts : List Pt,
      (build_person_obj cfg best_pts).points.length
        = min cfg.MAX_POINTS best_pts.length)
  ∧ (∀ cfg : Config, ∀ best_pts : List Pt,
      List.Pairwise
        (fun p q => dist2 p (robust_center best_pts) ≤ dist2 q (robust_center best_pts))
        (build_person_obj cfg best_pts).points)
  ∧ (∀ cfg : Config, ∀ best_pts : List Pt,
      (build_person_obj cfg best_pts).confidence
        = confidence_formula cfg
            (cap_near_center best_pts (robust_center best_pts) cfg.MAX_POINTS).length
            (median_radius
              (cap_near_center best_pts (robust_center best_pts) cfg.MAX_POINTS)
              (robust_center best_pts))
            (if cap_near_center best_pts (robust_center best_pts) cfg.MAX_POINTS = []
             then 0
             else medianList ((cap_near_center best_pts (robust_center best_pts)
               cfg.MAX_POINTS).map fun p => |p.v|)))
  ∧ ((build_person_obj defaultConfig ptsOrder).points = ptsOrderSorted
      ∧ ptsOrderSorted ≠ ptsOrder) := by
  refine ⟨fun cfg best_pts => rfl, ?_, ?_, fun cfg best_pts => rfl, by decide, by decide⟩
  · intro cfg best_pts
    exact cap_near_center_length best_pts (robust_center best_pts) cfg.MAX_POINTS
  · intro cfg best_pts
    exact cap_near_center_sorted best_pts (robust_center best_pts) cfg.MAX_POINTS

/-- C6: the reported confidence is
0.55·min(1, n/20) + 0.40·max(0, 1 − median_radius/MAX_MEDIAN_RADIUS_M)
+ 0.05·motion, clamped to [0, 1], where n is the capped point count and
motion is 1 with no speed gate and min(1, median_speed/speed_gate)
otherwise (stated under the configured thresholds exceeding the source's
1e-6 division guards, which the defaults do); it equals 1 exactly when
n ≥ 20, the median radius is 0 and the motion term saturates; and it is
exactly 0 whenever no cluster qualifies (present = false). -/
theorem confidence_spec :
    (∀ cfg : Config, ∀ best_pts : List Pt,
      (1 : ℚ) / 1000000 ≤ cfg.MAX_MEDIAN_RADIUS_M →
      (cfg.MIN_MEDIAN_SPEED_MPS ≤ 0 ∨ (1 : ℚ) / 1000000 ≤ cfg.MIN_MEDIAN_SPEED_MPS) →
      (build_person_obj cfg best_pts).confidence
        = max 0 (min 1 (0.55 * min 1 (((capped_pts cfg best_pts).length : ℝ) / 20)
          + 0.40 * max 0 (1 - median_radius (capped_pts cfg best_pts)
              (robust_center best_pts) / (cfg.MAX_MEDIAN_RADIUS_M : ℝ))
          + 0.05 * (if cfg.MIN_MEDIAN_SPEED_MPS ≤ 0 then (1 : ℝ)
              else min 1 ((med_speed_of (capped_pts cfg best_pts) : ℝ)
                / (cfg.MIN_MEDIAN_SPEED_MPS : ℝ))))))
  ∧ (∀ cfg : Config, ∀ best_pts : List Pt,
      (1 : ℚ) / 1000000 ≤ cfg.MAX_MEDIAN_RADIUS_M →
      (cfg.MIN_MEDIAN_SPEED_MPS ≤ 0 ∨ (1 : ℚ) / 1000000 ≤ cfg.MIN_MEDIAN_SPEED_MPS) →
      ((build_person_obj cfg best_pts).confidence = 1 ↔
        (20 ≤ (capped_pts cfg best_pts).length
          ∧ median_radius (capped_pts cfg best_pts) (robust_center best_pts) = 0
          ∧ (cfg.MIN_MEDIAN_SPEED_MPS ≤ 0
              ∨ cfg.MIN_MEDIAN_SPEED_MPS ≤ med_speed_of (capped_pts cfg best_pts)))))
  ∧ (∀ cfg : Config, ∀ cand : List Pt, ∀ snrs : Option (List ℤ),
      (person_of cfg cand snrs).present = false →
      (person_of cfg cand snrs).confidence = 0) := by
  refine ⟨build_confidence_unguarded, build_confidence_eq_one_iff, ?_⟩
  intro cfg cand snrs hpres
  rcases person_of_cases cfg cand snrs with h | ⟨bp, h⟩
  · rw [h]
    rfl
  · rw [h] at hpres
    exact absurd hpres (by simp [build_person_obj])

lemma median_radius_ptsA : median_radius ptsA ⟨0, 3, 0, 0⟩ = 1 := by
  unfold median_radius
  have h1 : ∀ p ∈ ptsA, Real.sqrt ((dist2 p ⟨0, 3, 0, 0⟩ : ℚ) : ℝ) = 1 := by
    intro p hp
    have hd : dist2 p ⟨0, 3, 0, 0⟩ = 1 := by
      revert hp
      simp only [ptsA, List.mem_cons, List.not_mem_nil, or_false]
      rintro (rfl | rfl | rfl | rfl) <;> decide
    rw [hd, Rat.cast_one, Real.sqrt_one]
  rw [List.map_congr_left h1, List.map_const' ptsA 1,
    show ptsA.length = 4 from by decide]
  exact medianList_replicate 4 1 (by decide)

lemma median_radius_ptsB : median_radius ptsB ⟨0, 6, 0, 0⟩ = 0 := by
  unfold median_radius
  rw [show ptsB = List.replicate 20 (⟨0, 6, 0, 0⟩ : Pt) from rfl, List.map_replicate]
  rw [show dist2 (⟨0, 6, 0, 0⟩ : Pt) ⟨0, 6, 0, 0⟩ = 0 from by decide,
    Rat.cast_zero, Real.sqrt_zero]
  exact medianList_replicate 20 0 (by decide)

lemma cluster_score_A : cluster_score ptsC4 none idxA = 3 := by
  unfold cluster_score
  dsimp only
  rw [show (idxA.map fun i => ptsC4.getD i pt0) = ptsA from by decide]
  rw [show robust_center ptsA = (⟨0, 3, 0, 0⟩ : Pt) from by decide]
  rw [median_radius_ptsA]
  rw [show cluster_mean_snr ptsC4 none idxA = 0 from rfl]
  rw [show cluster_center_y ptsC4 idxA = 4 from by decide]
  rw [show (idxA.map fun i => |(ptsC4.getD i pt0).v|).sum = 0 from by decide]
  rw [show idxA.length = 4 from by decide]
  push_cast
  norm_num

lemma cluster_score_B : cluster_score ptsC4 none idxB = 19.7 := by
  unfold cluster_score
  dsimp only
  rw [show (idxB.map fun i => ptsC4.getD i pt0) = ptsB from by decide]
  rw [show robust_center ptsB = (⟨0, 6, 0, 0⟩ : Pt) from by decide]
  rw [median_radius_ptsB]
  rw [show cluster_mean_snr ptsC4 none idxB = 0 from rfl]
  rw [show cluster_center_y ptsC4 idxB = 6 from by decide]
  rw [show (idxB.map fun i => |(ptsC4.getD i pt0).v|).sum = 0 from by decide]
  rw [show idxB.length = 20 from by decide]
  push_cast
  norm_num

/-- C4 counterexample: on a frame holding a 4-point cluster with y values
[2, 2, 4, 4] (statistical median y = 3 ≤ PREF_Y_MAX = 3.5, but the code's
sorted upper-middle y = 4 > 3.5) and a 20-point cluster at y = 6, the
claimed median-y near rule keeps the pool to the first cluster and returns
its indices, while the code finds no "near" cluster, falls back to the full
pool and returns the far 20-point cluster. -/
theorem pick_best_cluster_cex :
    pick_best_cluster_med defaultConfig ptsC4 none labelsC4 = idxA
    ∧ pick_best_cluster defaultConfig ptsC4 none labelsC4 = idxB
    ∧ cluster_median_y ptsC4 idxA ≤ defaultConfig.PREF_Y_MAX
    ∧ ¬ cluster_center_y ptsC4 idxA ≤ defaultConfig.PREF_Y_MAX
    ∧ idxA ≠ idxB := by
  refine ⟨by decide, ?_, by decide, by decide, by decide⟩
  have hcs : clusters_of labelsC4 = [(0, idxA), (1, idxB)] := by decide
  have h0 : ¬ labelsC4.length = 0 := by decide
  have hnear : ([((0 : ℤ), idxA), ((1 : ℤ), idxB)].filter fun c =>
      decide (cluster_center_y ptsC4 c.2 ≤ defaultConfig.PREF_Y_MAX)) = [] := by decide
  have hsc : cluster_score ptsC4 none idxA < cluster_score ptsC4 none idxB := by
    rw [cluster_score_A, cluster_score_B]
    norm_num
  unfold pick_best_cluster
  rw [if_neg h0, hcs]
  dsimp only
  rw [hnear]
  simp only [List.isEmpty_nil, if_true]
  rw [max_by_score]
  dsimp only
  rw [if_pos hsc]
  rw [max_by_score]

/-- C4 (amended): the selector returns nothing on an empty label array or
when every label is noise; the pool rule keeps exactly the clusters whose
*sorted upper-middle* y value (`ys[len // 2]`, the statistical median only
for odd sizes) is at most `PREF_Y_MAX` when any such cluster exists and all
clusters otherwise; within the pool it returns the point indices of the
first cluster attaining the maximal score
`size + 0.02·mean_snr − 0.8·median_radius + 0.4·mean_|v| − 0.05·upper_middle_y`
(ties broken in favour of the first-encountered cluster id); and on the
near/far instance (6 tight points at y = 2, 20 tight points at y = 6,
PREF_Y_MAX = 3.5) the near cluster is chosen. -/
theorem pick_best_cluster_spec :
    (∀ cfg : Config, ∀ points : List Pt, ∀ snrs : Option (List ℤ), ∀ labels : List ℤ,
      labels.length = 0 → pick_best_cluster cfg points snrs labels = [])
  ∧ (∀ cfg : Config, ∀ points : List Pt, ∀ snrs : Option (List ℤ), ∀ labels : List ℤ,
      clusters_of labels = [] → pick_best_cluster cfg points snrs labels = [])
  ∧ (∀ cfg : Config, ∀ points : List Pt, ∀ cs : List (ℤ × List ℕ),
      ((∃ c ∈ cs, cluster_center_y points c.2 ≤ cfg.PREF_Y_MAX) →
        poolOf cfg points cs
          = cs.filter fun c => decide (cluster_center_y points c.2 ≤ cfg.PREF_Y_MAX))
      ∧ ((∀ c ∈ cs, ¬ cluster_center_y points c.2 ≤ cfg.PREF_Y_MAX) →
        poolOf cfg points cs = cs))
  ∧ (∀ cfg : Config, ∀ points : List Pt, ∀ snrs : Option (List ℤ), ∀ labels : List ℤ,
      ∀ c0 : ℤ × List ℕ, ∀ rest : List (ℤ × List ℕ),
      labels.length ≠ 0 → clusters_of labels = c0 :: rest →
      ∃ chosen pre post,
        pick_best_cluster cfg points snrs labels = chosen.2
        ∧ poolOf cfg points (c0 :: rest) = pre ++ chosen :: post
        ∧ (∀ b ∈ pre, cluster_score points snrs b.2 < cluster_score points snrs chosen.2)
        ∧ (∀ b ∈ poolOf cfg points (c0 :: rest),
            cluster_score points snrs b.2 ≤ cluster_score points snrs chosen.2))
  ∧ pick_best_cluster defaultConfig ptsNearFar none labelsNearFar
      = [0, 1, 2, 3, 4, 5] := by
  refine ⟨?_, ?_,
    fun cfg points cs => ⟨poolOf_near cfg points cs, poolOf_far cfg points cs⟩,
    pick_best_cluster_argmax, by decide⟩
  · intro cfg points snrs labels h
    unfold pick_best_cluster
    rw [if_pos h]
  · intro cfg points snrs labels h
    unfold pick_best_cluster
    split
    · rfl
    · rw [h]

/-- C5: with a positive minimum-size gate (the default is 4), the person
estimate has `present = false` exactly when every DBSCAN label is noise, or
the selected best cluster has fewer than `MIN_PERSON_POINTS` points, or its
median radius exceeds `MAX_MEDIAN_RADIUS_M`, or a positive minimum-speed
gate is configured and the cluster's median absolute velocity is below it;
and the concrete scattered cluster — six points at distance exactly 2 m
from their own center, all selected — is rejected under the default
`MAX_MEDIAN_RADIUS_M = 0.85` despite passing the size gate. -/
theorem presence_gating_spec :
    (∀ cfg : Config, ∀ cand : List Pt, ∀ snrs : Option (List ℤ),
      1 ≤ cfg.MIN_PERSON_POINTS →
      ((person_of cfg cand snrs).present = false ↔
        ((∀ l ∈ frame_labels cfg cand, l < 0)
          ∨ (best_pts_of cfg cand snrs).length < cfg.MIN_PERSON_POINTS
          ∨ (cfg.MAX_MEDIAN_RADIUS_M : ℝ)
              < median_radius (best_pts_of cfg cand snrs)
                  (robust_center (best_pts_of cfg cand snrs))
          ∨ (0 < cfg.MIN_MEDIAN_SPEED_MPS
              ∧ med_speed_of (best_pts_of cfg cand snrs) < cfg.MIN_MEDIAN_SPEED_MPS))))
  ∧ (best_pts_of cfgScatter ptsScatter none = ptsScatter
      ∧ cfgScatter.MIN_PERSON_POINTS ≤ (best_pts_of cfgScatter ptsScatter none).length
      ∧ median_radius (best_pts_of cfgScatter ptsScatter none)
          (robust_center (best_pts_of cfgScatter ptsScatter none)) = 2
      ∧ (person_of cfgScatter ptsScatter none).present = false) := by
  have hBP : best_pts_of cfgScatter ptsScatter none = ptsScatter := by decide
  have hcenter : robust_center ptsScatter = ⟨0, 5, 1, 0⟩ := by decide
  have hmr : median_radius ptsScatter ⟨0, 5, 1, 0⟩ = 2 := by
    unfold median_radius
    have h1 : ∀ p ∈ ptsScatter, Real.sqrt ((dist2 p ⟨0, 5, 1, 0⟩ : ℚ) : ℝ) = 2 := by
      intro p hp
      have hd : dist2 p ⟨0, 5, 1, 0⟩ = 4 := by
        revert hp
        simp only [ptsScatter, List.mem_cons, List.not_mem_nil, or_false]
        rintro (rfl | rfl | rfl | rfl | rfl | rfl) <;> decide
      rw [hd, show ((4 : ℚ) : ℝ) = 4 by norm_num, show (4 : ℝ) = 2 ^ 2 by norm_num,
        Real.sqrt_sq (by norm_num)]
    rw [List.map_congr_left h1, List.map_const' ptsScatter 2,
      show ptsScatter.length = 6 from by decide]
    exact medianList_replicate 6 2 (by decide)
  refine ⟨person_of_present_iff, hBP, by decide, ?_, ?_⟩
  · rw [hBP, hcenter]
    exact hmr
  · refine (person_of_present_iff cfgScatter ptsScatter none (by decide)).mpr ?_
    refine Or.inr (Or.inr (Or.inl ?_))
    rw [hBP, hcenter, hmr,
      show cfgScatter.MAX_MEDIAN_RADIUS_M = 17 / 20 from by decide]
    push_cast
    norm_num

end ConcreteEval

end Radian
